import Mathlib

/-!
Verification development for the enhanced-peer-deps (epd) tool.

This file gives a shallow embedding of the conflict-resolution engine and
the manifest-mutation protocol implemented in the repository, and proves or
refutes the frozen specification claims against it.

The embedded code works on semver version and range STRINGS, exactly as the
source does through the node `semver` library.  The embedding models the
`semver` operations that the source uses (valid, validRange, Range, satisfies,
gt, compare, maxSatisfying) over the restricted range grammar the tool
manipulates: exact versions `X.Y.Z`, caret ranges `^X.Y.Z`, tilde ranges
`~X.Y.Z`, wildcards `*`, primitive comparators `>=X.Y.Z` and `<X.Y.Z-0`
(the two comparator forms that caret/tilde ranges normalise to), and
space-separated conjunctions of these.  Prerelease/build identifiers, OR
ranges and loose parsing are outside the modelled grammar, as the spec and
claims never exercise them.
-/

namespace Epd

/-- A parsed semantic version `major.minor.patch` (no prerelease, which the
modelled grammar never produces between comparators applied to release
versions). -/
structure Version where
  major : Nat
  minor : Nat
  patch : Nat
deriving DecidableEq, Repr

/-- Strict semver precedence order on release versions: lexicographic on
(major, minor, patch). -/
def vlt (a b : Version) : Prop :=
  a.major < b.major ∨
    (a.major = b.major ∧
      (a.minor < b.minor ∨ (a.minor = b.minor ∧ a.patch < b.patch)))

instance (a b : Version) : Decidable (vlt a b) := by
  unfold vlt; infer_instance

theorem vlt_irrefl (a : Version) : ¬ vlt a a := by
  unfold vlt; omega

theorem vlt_trans {a b c : Version} (h1 : vlt a b) (h2 : vlt b c) : vlt a c := by
  unfold vlt at *; omega

theorem vlt_asymm {a b : Version} (h1 : vlt a b) : ¬ vlt b a := by
  unfold vlt at *; omega

theorem vlt_total (a b : Version) : vlt a b ∨ a = b ∨ vlt b a := by
  unfold vlt
  rcases a with ⟨a1, a2, a3⟩
  rcases b with ⟨b1, b2, b3⟩
  simp only [Version.mk.injEq]
  omega

/-- Split a character list on a separator character (the `String.split`
semantics the parser needs, as a structurally recursive function). -/
def splitOnChar (sep : Char) : List Char → List (List Char)
  | [] => [[]]
  | c :: cs =>
    match splitOnChar sep cs with
    | [] => [[]]
    | t :: ts => if c = sep then [] :: t :: ts else (c :: t) :: ts

/-- Parse one dot-separated numeric component, rejecting leading zeros
(as the semver grammar does). -/
def parseNumPart : List Char → Option Nat
  | [] => none
  | c :: cs =>
    if (c :: cs).all Char.isDigit && (c != '0' || cs.isEmpty) then
      some ((c :: cs).foldl (fun n ch => n * 10 + (ch.toNat - 48)) 0)
    else
      none

/-- Version parsing over characters: exactly three numeric components. -/
def parseVersionL (l : List Char) : Option Version :=
  match splitOnChar '.' l with
  | [a, b, c] =>
    match parseNumPart a, parseNumPart b, parseNumPart c with
    | some x, some y, some z => some ⟨x, y, z⟩
    | _, _, _ => none
  | _ => none

/-- `semver.valid` over the modelled grammar: a bare `X.Y.Z` version string. -/
def parseVersion (s : String) : Option Version :=
  parseVersionL s.toList

/-- Render a version back to its canonical string. -/
def versionToString (v : Version) : String :=
  toString v.major ++ "." ++ toString v.minor ++ "." ++ toString v.patch

/-- One comparator of a parsed semver range.  `ltPre v` models the comparator
`<X.Y.Z-0` that caret/tilde ranges normalise to; on release versions it is
the strict bound `< v`. -/
inductive Cmp where
  | eq (v : Version)
  | ge (v : Version)
  | ltPre (v : Version)
deriving DecidableEq, Repr

/-- Does release version `v` satisfy one comparator. -/
def satCmp (v : Version) : Cmp → Bool
  | .eq w => v = w
  | .ge w => ¬ vlt v w
  | .ltPre w => vlt v w

/-- `semver.satisfies` for a parsed comparator conjunction. -/
def satisfiesRange (v : Version) (cmps : List Cmp) : Bool :=
  cmps.all (satCmp v)

/-- Upper bound used by caret ranges: `^1.2.3 -> <2.0.0-0`,
`^0.2.3 -> <0.3.0-0`, `^0.0.3 -> <0.0.4-0`. -/
def caretUpper (v : Version) : Version :=
  if v.major > 0 then ⟨v.major + 1, 0, 0⟩
  else if v.minor > 0 then ⟨0, v.minor + 1, 0⟩
  else ⟨0, 0, v.patch + 1⟩

/-- Upper bound used by tilde ranges: `~1.2.3 -> <1.3.0-0`. -/
def tildeUpper (v : Version) : Version :=
  ⟨v.major, v.minor + 1, 0⟩

/-- Parse one whitespace-delimited range token into its comparator list.
A `*` (or empty) token contributes no comparator, exactly as the `semver`
`Comparator("*")` has empty value and disappears from the normalised
range string.  An unrecognised token is parsed as a bare version (failing
for anything else), matching the if-chain over `startsWith` tests. -/
def parseTokenL : List Char → Option (List Cmp)
  | [] => some []
  | ['*'] => some []
  | '^' :: rest => (parseVersionL rest).map (fun v => [.ge v, .ltPre (caretUpper v)])
  | '~' :: rest => (parseVersionL rest).map (fun v => [.ge v, .ltPre (tildeUpper v)])
  | '>' :: '=' :: rest => (parseVersionL rest).map (fun v => [.ge v])
  | '<' :: rest =>
    (match rest.reverse with
     | '0' :: '-' :: revCore => (parseVersionL revCore.reverse).map (fun v => [.ltPre v])
     | _ => none)
  | l => (parseVersionL l).map (fun v => [.eq v])

/-- Parse one range token given as a string. -/
def parseToken (t : String) : Option (List Cmp) :=
  parseTokenL t.toList

/-- Parse a full (conjunctive) range string: every space-separated token must
parse; the comparator lists concatenate. -/
def parseRangeStr (s : String) : Option (List Cmp) :=
  (splitOnChar ' ' s.toList).foldl
    (fun acc t =>
      match acc, parseTokenL t with
      | some l, some c => some (l ++ c)
      | _, _ => none)
    (some [])

/-- Render one comparator the way `semver` normalises it. -/
def printCmp : Cmp → String
  | .eq v => versionToString v
  | .ge v => ">=" ++ versionToString v
  | .ltPre v => "<" ++ versionToString v ++ "-0"

/-- Render a comparator conjunction the way `semver.validRange` does
(an empty conjunction renders as `*`). -/
def printRange (cmps : List Cmp) : String :=
  match cmps with
  | [] => "*"
  | _ => String.intercalate " " (cmps.map printCmp)

/-- `semver.validRange`: the normalised range string, or `none` for a
syntactically invalid range. -/
def validRange (s : String) : Option String :=
  (parseRangeStr s).map printRange

/-- `semver.gt` on version strings; comparisons involving an unparseable
version are `false` (the source wraps such calls in try/catch keeping the
old value, or guarantees validity). -/
def gtStr (a b : String) : Bool :=
  match parseVersion a, parseVersion b with
  | some va, some vb => vlt vb va
  | _, _ => false

/-- `semver.compare` on version strings (-1, 0, 1); 0 for unparseable input,
where the source catches the thrown error and treats the pair as equal. -/
def compareStr (a b : String) : Int :=
  match parseVersion a, parseVersion b with
  | some va, some vb => if vlt va vb then -1 else if va = vb then 0 else 1
  | _, _ => 0

end Epd

namespace Epd

/-- Stable insertion step used to model JavaScript `Array.prototype.sort`
(which is stable): `x` is the element arriving after everything in the list,
and moves before the first element `y` with `cmp x y < 0`. -/
def insertSorted (cmp : String → String → Int) (x : String) : List String → List String
  | [] => [x]
  | y :: ys => if cmp x y < 0 then x :: y :: ys else y :: insertSorted cmp x ys

/-- Stable sort by a JavaScript-style comparator. -/
def sortJS (cmp : String → String → Int) (l : List String) : List String :=
  l.foldl (fun acc x => insertSorted cmp x acc) []

theorem mem_insertSorted {cmp x} {l : List String} {z : String} :
    z ∈ insertSorted cmp x l ↔ z = x ∨ z ∈ l := by
  induction l with
  | nil => simp [insertSorted]
  | cons y ys ih =>
    simp only [insertSorted]
    split
    · simp [or_comm, or_left_comm, List.mem_cons]
    · simp only [List.mem_cons, ih]
      tauto

theorem mem_sortJS_aux {cmp} (l : List String) :
    ∀ acc z, (z ∈ l.foldl (fun acc x => insertSorted cmp x acc) acc ↔ z ∈ l ∨ z ∈ acc) := by
  induction l with
  | nil => intro acc z; simp
  | cons x xs ih =>
    intro acc z
    simp only [List.foldl_cons, ih, mem_insertSorted, List.mem_cons]
    tauto

theorem mem_sortJS {cmp} {l : List String} {z : String} :
    z ∈ sortJS cmp l ↔ z ∈ l := by
  unfold sortJS
  rw [mem_sortJS_aux]
  simp

end Epd

namespace Epd

/-- Sort version strings descending, as `getPackageVersionsFromRegistry` does
with `.sort((a, b) => semver.compare(b, a))`. -/
def sortVersionsDesc (l : List String) : List String :=
  sortJS (fun a b => compareStr b a) l

/-- The Version Registry Client `getPackageVersionsFromRegistry`.  Its
argument models the raw fetch outcome: `.error` for any fetch failure
(HTTP error, network error, malformed body) and `.ok keys` for the keys of
the JSON `versions` object.  On failure the catch block returns `[]`;
on success the keys are sorted descending.  (The per-name cache only
deduplicates fetches and is not modelled.) -/
def getPackageVersionsFromRegistry (fetch : Except String (List String)) : List String :=
  match fetch with
  | .error _ => []
  | .ok keys => sortVersionsDesc keys

/-- The progressive pairwise intersection loop at the top of
`resolveVersionConflict`: `intersection = ranges[0]` then repeatedly
`intersection = semver.validRange(intersection ++ " " ++ r)`, failing to
`none` (`hasValidIntersection = false`) as soon as `validRange` returns
null. -/
def progressiveValidRange (acc : String) : List String → Option String
  | [] => some acc
  | r :: rs =>
    match validRange (acc ++ " " ++ r) with
    | none => none
    | some i => progressiveValidRange i rs

/-- `semver.maxSatisfying(versions, range)`: the greatest version string in
the list satisfying the range, or `none`. -/
def maxSatisfying (versions : List String) (cmps : List Cmp) : Option String :=
  versions.foldl
    (fun acc v =>
      match parseVersion v with
      | none => acc
      | some pv =>
        if satisfiesRange pv cmps then
          match acc with
          | none => some v
          | some m => if gtStr v m then some v else acc
        else acc)
    none

/-- `findVersionIntersection`: joins the ranges (with `*` replaced by
`>=0.0.0`), validates the combined range, and returns the maximum available
version satisfying it — or, when no available version satisfies it, the
normalised combined range STRING itself (`return maxSatisfying ||
intersection`). -/
def findVersionIntersection (ranges : List String) (availableVersions : List String) :
    Option String :=
  let processed := ranges.map (fun r => if r = "*" then ">=0.0.0" else r)
  let combined := String.intercalate " " processed
  match parseRangeStr combined with
  | none => none
  | some cmps =>
    match maxSatisfying availableVersions cmps with
    | some v => some v
    | none => some (printRange cmps)

/-- The pre-computed requirement object for one range in the best-compromise
scoring loop: `range === "*" ? null : new semver.Range(range)`, with a
thrown parse error caught to `null`. -/
def reqObj (range : String) : Option (List Cmp) :=
  if range = "*" then none else parseRangeStr range

/-- The per-candidate score contribution of one requirement range in the
scoring loop: a `null` requirement object (a `*` range or an unparseable
range) counts as satisfied; otherwise `semver.satisfies` decides. -/
def satOne (range : String) (version : String) : Nat :=
  match reqObj range with
  | none => 1
  | some cmps =>
    match parseVersion version with
    | some v => if satisfiesRange v cmps then 1 else 0
    | none => 0

/-- The `satisfiedCount` computed for one candidate version. -/
def satisfiedCount (ranges : List String) (version : String) : Nat :=
  (ranges.map (fun r => satOne r version)).sum

/-- The running best candidate of the best-compromise search. -/
structure BestMatch where
  version : String
  satisfiedCount : Nat
deriving DecidableEq, Repr

/-- The best-compromise scoring loop: update the best match when a candidate
satisfies strictly more requirements, or as many with a higher version
(`semver.gt`); exit early the moment a candidate satisfies all `total`
requirements. -/
def scanVersions (ranges : List String) (total : Nat) :
    BestMatch → List String → BestMatch
  | best, [] => best
  | best, v :: rest =>
    let c := satisfiedCount ranges v
    let best' :=
      if c > best.satisfiedCount ∨ (c = best.satisfiedCount ∧ gtStr v best.version) then
        BestMatch.mk v c
      else best
    if c = total then best' else scanVersions ranges total best' rest

/-- The outcome record built by `resolveVersionConflict`. -/
structure Resolution where
  resolvedVersion : String
  hasConflict : Bool
  resolutionType : String
  availableVersionsCount : Nat
deriving DecidableEq, Repr

/-- The string with every character other than digits and dots removed:
`a.replace(/[^0-9.]/g, "")` in `findHighestSemverVersion`. -/
def stripNonNumeric (s : String) : String :=
  String.mk (s.toList.filter (fun c => c.isDigit || c = '.'))

/-- The sort comparator inside `findHighestSemverVersion`: wildcards last,
caret ranges before non-caret ranges, then numeric base versions descending
(`semver.compare` throwing on a non-version base is caught to 0) —
`startsWith` tests are modelled by first-character tests. -/
def startsCaret (r : String) : Bool :=
  match r.toList with
  | c :: _ => c = '^'
  | [] => false

/-- Whether a range string starts with a tilde. -/
def startsTilde (r : String) : Bool :=
  match r.toList with
  | c :: _ => c = '~'
  | [] => false

/-- The sort comparator inside `findHighestSemverVersion`: wildcards last,
caret ranges before non-caret ranges, then numeric base versions descending
(`semver.compare` throwing on a non-version base is caught to 0). -/
def rangeCmp (a b : String) : Int :=
  if a = "*" then 1
  else if b = "*" then -1
  else
    let aIsCaret := startsCaret a
    let bIsCaret := startsCaret b
    if aIsCaret && !bIsCaret then -1
    else if !aIsCaret && bIsCaret then 1
    else
      match parseVersion (stripNonNumeric b), parseVersion (stripNonNumeric a) with
      | some vb, some va => if vlt vb va then -1 else if vb = va then 0 else 1
      | _, _ => 0

/-- `findHighestSemverVersion`: if any range is already an exact version,
reduce to the greatest of those by `semver.gt`; otherwise sort the ranges by
`rangeCmp` and take the first.  (For an empty input the JavaScript function
returns `undefined`; the model returns `""` there, and every theorem about
it assumes a non-empty input.) -/
def findHighestSemverVersion (ranges : List String) : String :=
  let exactVersions := ranges.filter (fun r => (parseVersion r).isSome)
  match exactVersions with
  | e :: _ =>
    exactVersions.foldl (fun highest current => if gtStr current highest then current else highest) e
  | [] => (sortJS rangeCmp ranges).headD ""

/-- Steps 2b–5 of `resolveVersionConflict`, entered once the available
versions have been obtained: empty list → `no-versions-fallback`; otherwise
score every candidate, returning `best-compromise` when some requirement was
satisfied and `highest-required` when none was.  The second component counts
registry-client invocations made so far plus the one made here. -/
def conflictFromVersions (ranges : List String) (vs : List String) (callsBefore : Nat) :
    Resolution × Nat :=
  if vs.isEmpty then
    (⟨findHighestSemverVersion ranges, true, "no-versions-fallback", 0⟩, callsBefore + 1)
  else
    let best := scanVersions ranges ranges.length ⟨vs.headD "", 0⟩ vs
    if best.satisfiedCount > 0 then
      (⟨best.version, true, "best-compromise", vs.length⟩, callsBefore + 1)
    else
      (⟨findHighestSemverVersion ranges, true, "highest-required", vs.length⟩, callsBefore + 1)

/-- `resolveVersionConflict` for a dependency with multiple requirements.
The `registryCall` argument models what the awaited call to
`getPackageVersionsFromRegistry` does: `.ok vs` yields the version list,
`.error` models the call throwing (which the function defends against with
try/catch, though the real client never throws).  The second component of
the result counts registry-client invocations. -/
def resolveVersionConflict (ranges : List String) (registryCall : Except String (List String)) :
    Resolution × Nat :=
  match progressiveValidRange (ranges.headD "") ranges.tail with
  | some inter =>
    match parseVersion inter with
    | some _ =>
      -- valid intersection that is an exact version: returned with no registry query
      (⟨inter, false, "exact-match", 0⟩, 0)
    | none =>
      -- step: try findVersionIntersection (queries the registry); a thrown
      -- error is caught and falls through to the compromise search
      match registryCall with
      | .error _ =>
        -- the call inside findVersionIntersection threw; the later fetch
        -- throws again and is caught into the highest-required fallback
        (⟨findHighestSemverVersion ranges, true, "highest-required-fallback", 0⟩, 2)
      | .ok vs =>
        match findVersionIntersection ranges vs with
        | some rv => (⟨rv, false, "intersection", 0⟩, 1)
        | none => conflictFromVersions ranges vs 1
  | none =>
    -- no valid intersection: fetch available versions for the compromise search
    match registryCall with
    | .error _ =>
      (⟨findHighestSemverVersion ranges, true, "highest-required-fallback", 0⟩, 1)
    | .ok vs => conflictFromVersions ranges vs 0

/-- The resolver as actually composed with the registry client: the awaited
client call never throws, it returns the (possibly empty) sorted list. -/
def resolveConflictFull (ranges : List String) (fetch : Except String (List String)) :
    Resolution × Nat :=
  resolveVersionConflict ranges (.ok (getPackageVersionsFromRegistry fetch))

/-- One collected peer requirement. -/
structure PeerRequirement where
  requiredBy : String
  versionRange : String
deriving DecidableEq, Repr

/-- The per-dependency dispatch in `collectPeerDependencies`: a group with
exactly one requirement resolves to its range verbatim, synchronously, with
no conflict-report entry and no registry call; larger groups go through
`resolveVersionConflict`, and a conflict-report entry is recorded exactly
when the resolution has `hasConflict`.  Result: (resolved version, whether a
conflict-report entry is recorded, registry-client invocation count). -/
def resolveDep (requirements : List PeerRequirement)
    (registryCall : Except String (List String)) : String × Bool × Nat :=
  match requirements with
  | [r] => (r.versionRange, false, 0)
  | _ =>
    let rc := resolveVersionConflict (requirements.map (fun r => r.versionRange)) registryCall
    (rc.1.resolvedVersion, rc.1.hasConflict, rc.2)

end Epd

namespace Epd

/-- First-match lookup in an association list modelling a JavaScript object
(keys are unique in objects obtained from JSON). -/
def getA (l : List (String × String)) (k : String) : Option String :=
  match l.find? (fun kv => kv.1 = k) with
  | some kv => some kv.2
  | none => none

/-- JavaScript property assignment `obj[k] = v`: update in place when the
key exists, append otherwise. -/
def setA : List (String × String) → String → String → List (String × String)
  | [], k, v => [(k, v)]
  | kv :: rest, k, v =>
    if kv.1 = k then (k, v) :: rest else kv :: setA rest k v

/-- Truthiness of `l[k]` for a string-valued JavaScript object: present and
not the empty string. -/
def truthyL (l : List (String × String)) (k : String) : Bool :=
  match getA l k with
  | some v => v ≠ ""
  | none => false

/-- Truthiness of `obj && obj[k]` where the object itself may be absent. -/
def truthyO (o : Option (List (String × String))) (k : String) : Bool :=
  match o with
  | some l => truthyL l k
  | none => false

/-- Yarn workspaces configuration in object form.  (The source also accepts
the array form, onto which its `workspaces.nohoist = []` assignment attaches
a property that `JSON.stringify` then drops; the model covers the object
form, which is the one the nohoist mutation can serialise.) -/
structure Workspaces where
  packages : List String := []
  nohoist : Option (List String) := none
deriving DecidableEq, Repr

/-- The nonstandard `npmConfig` block the tool writes for npm projects. -/
structure NpmConfig where
  legacy_peer_deps : Option Bool := none
deriving DecidableEq, Repr

/-- The `pnpm.peerDependencyRules` block. -/
structure PeerRules where
  allowedVersions : Option (List (String × String)) := none
  ignoreMissing : Option (List String) := none
deriving DecidableEq, Repr

/-- The `pnpm` configuration block. -/
structure PnpmConfig where
  overrides : Option (List (String × String)) := none
  peerDependencyRules : Option PeerRules := none
  hoistingLimits : Option String := none
deriving DecidableEq, Repr

/-- The project manifest (package.json) restricted to the fields the
mutation protocol reads or writes.  Association lists keep JavaScript
object key order; the serialiser renders fields in the declared order,
which stands in for the insertion order of a concrete manifest. -/
structure Manifest where
  name : Option String := none
  dependencies : Option (List (String × String)) := none
  devDependencies : Option (List (String × String)) := none
  peerDependencies : Option (List (String × String)) := none
  workspaces : Option Workspaces := none
  resolutions : Option (List (String × String)) := none
  npmConfig : Option NpmConfig := none
  pnpm : Option PnpmConfig := none
deriving DecidableEq, Repr

/-- The three supported package managers. -/
inductive PM where
  | npm
  | yarn
  | pnpm
deriving DecidableEq, Repr

/-- The fixed set of critical dependencies, in source order. -/
def KNOWN_CRITICAL_DEPS : List String :=
  ["react", "react-dom", "@types/react", "@types/react-dom", "vue",
   "@vue/runtime-core", "typescript", "@types/node", "webpack",
   "@types/webpack", "styled-components", "@emotion/react", "next", "nuxt",
   "graphql", "@apollo/client", "rxjs", "lodash"]

/-- The fixed map of known problematic packages to their expected peer
dependencies, in source order. -/
def KNOWN_PROBLEMATIC_PACKAGES : List (String × List (String × String)) :=
  [("react-redux", [("react", "*"), ("redux", "*")]),
   ("@mui/material", [("react", "*"), ("react-dom", "*")]),
   ("styled-components", [("react", "*"), ("react-dom", "*")]),
   ("vuex", [("vue", "*")]),
   ("vue-router", [("vue", "*")]),
   ("graphql-tag", [("graphql", "*")])]

/-- Lookup into the spread `\x7b...dependencies, ...devDependencies\x7d`:
devDependencies wins on a key clash. -/
def allDepsLookup (m : Manifest) (k : String) : Option String :=
  match getA (m.devDependencies.getD []) k with
  | some v => some v
  | none => getA (m.dependencies.getD []) k

/-- Truthy presence of a name in the spread of both dependency sections. -/
def truthyAll (m : Manifest) (k : String) : Bool :=
  match allDepsLookup m k with
  | some v => v ≠ ""
  | none => false

/-- `detectCriticalDependencies`: the known critical names present in the
dependency spread. -/
def detectCriticalDependencies (m : Manifest) : List String :=
  KNOWN_CRITICAL_DEPS.filter (fun d => truthyAll m d)

/-- `detectProblematicPackages`: for each known problematic package present
in the dependency spread, the subset of its expected peers that are absent;
packages with no missing peer are dropped. -/
def detectProblematicPackages (m : Manifest) : List (String × List (String × String)) :=
  KNOWN_PROBLEMATIC_PACKAGES.filterMap (fun pr =>
    if truthyAll m pr.1 then
      let missing := pr.2.filter (fun peer => ¬ truthyAll m peer.1)
      if missing.isEmpty then none else some (pr.1, missing)
    else none)

/-- One step of the peer-dependency merge loop: add `(dep, version)` to
devDependencies only when `dep` is truthy-present in neither dependencies
nor devDependencies. -/
def addPeerDepsStep (dependencies : Option (List (String × String)))
    (dd : List (String × String)) (p : String × String) : List (String × String) :=
  if truthyO dependencies p.1 = false ∧ truthyL dd p.1 = false then
    setA dd p.1 p.2
  else dd

/-- The devDependencies merge phase of `createTemporaryPackageJson`:
`devDependencies = devDependencies || \x7b\x7d`, then the add-if-absent loop
over the resolved peer dependencies. -/
def addPhase (peerDeps : List (String × String)) (m : Manifest) : Manifest :=
  { m with
    devDependencies :=
      some (peerDeps.foldl (addPeerDepsStep m.dependencies) (m.devDependencies.getD [])) }

/-- Append a string to a list unless already present (the
`if (!list.includes(x)) list.push(x)` idiom). -/
def pushIfAbsent (l : List String) (x : String) : List String :=
  if x ∈ l then l else l ++ [x]

/-- The pnpm branch of the package-manager switch: overrides for every
resolved dependency, allowedVersions for the critical ones, and
ignore-missing entries `pkg > peer` for each detected problematic package,
each pushed only if absent. -/
def applyPnpm (peerDeps : List (String × String)) (critical : List String)
    (problematic : List (String × List (String × String))) (m : Manifest) : Manifest :=
  let p0 := m.pnpm.getD {}
  let ov := peerDeps.foldl (fun acc dv => setA acc dv.1 dv.2) (p0.overrides.getD [])
  let rules0 := p0.peerDependencyRules.getD {}
  let av := peerDeps.foldl
    (fun acc dv => if dv.1 ∈ critical then setA acc dv.1 dv.2 else acc)
    (rules0.allowedVersions.getD [])
  let ig := problematic.foldl
    (fun acc pr => pr.2.foldl (fun acc2 peer => pushIfAbsent acc2 (pr.1 ++ " > " ++ peer.1)) acc)
    (rules0.ignoreMissing.getD [])
  { m with
    pnpm := some
      { p0 with
        overrides := some ov,
        peerDependencyRules := some
          { rules0 with allowedVersions := some av, ignoreMissing := some ig } } }

/-- The monorepo extras: pnpm gets `hoistingLimits = "workspaces"`; yarn
with a workspaces config gets a `**/dep/**` nohoist pattern per critical
dependency, each pushed only if absent. -/
def applyMonorepoExtras (pm : PM) (critical : List String) (m : Manifest) : Manifest :=
  match pm with
  | .pnpm =>
    let p0 := m.pnpm.getD {}
    { m with pnpm := some { p0 with hoistingLimits := some "workspaces" } }
  | .yarn =>
    match m.workspaces with
    | none => m
    | some w =>
      let nh := critical.foldl
        (fun acc d => pushIfAbsent acc ("**/" ++ d ++ "/**")) (w.nohoist.getD [])
      { m with workspaces := some { w with nohoist := some nh } }
  | .npm => m

/-- The full in-memory mutation performed by `createTemporaryPackageJson`
between the backup write and the manifest write: the devDependencies merge,
the detection passes (run on the post-merge manifest, as in the source),
the package-manager switch, and the monorepo extras.
`otherMonorepoIndicators` models the filesystem-side monorepo indicators
(lerna.json, pnpm-workspace.yaml, populated conventional directories). -/
def mutateManifest (peerDeps : List (String × String)) (pm : PM)
    (otherMonorepoIndicators : Bool) (m0 : Manifest) : Manifest :=
  let m1 := addPhase peerDeps m0
  let critical := detectCriticalDependencies m1
  let isMonorepo := m1.workspaces.isSome || otherMonorepoIndicators
  let problematic := detectProblematicPackages m1
  let m2 :=
    match pm with
    | .npm =>
      { m1 with
        npmConfig := some { (m1.npmConfig.getD {}) with legacy_peer_deps := some true } }
    | .yarn =>
      { m1 with
        resolutions :=
          some (peerDeps.foldl (fun acc dv => setA acc dv.1 dv.2) (m1.resolutions.getD [])) }
    | .pnpm => applyPnpm peerDeps critical problematic m1
  if isMonorepo then applyMonorepoExtras pm critical m2 else m2

end Epd

namespace Epd

/-- A run of spaces for pretty-printed JSON indentation. -/
def indentS (n : Nat) : String :=
  String.mk (List.replicate n ' ')

/-- Quote a JSON string.  The manifest strings the tool handles (package
names, version ranges, glob patterns) contain no characters that
`JSON.stringify` would escape, so no escaping is modelled. -/
def jsonQuote (s : String) : String :=
  "\"" ++ s ++ "\""

/-- Assemble a JSON object from already-rendered field values, in the style
of `JSON.stringify(obj, null, 2)`: fields indented at `ind`, closing brace
at `ind - 2`, `\x7b\x7d` when empty. -/
def assembleObj (ind : Nat) (fields : List (String × String)) : String :=
  if fields.isEmpty then "\x7b\x7d"
  else
    "\x7b\n" ++
      String.intercalate ",\n"
        (fields.map (fun kv => indentS ind ++ jsonQuote kv.1 ++ ": " ++ kv.2)) ++
      "\n" ++ indentS (ind - 2) ++ "\x7d"

/-- Render a string-to-string object. -/
def renderPairs (ind : Nat) (l : List (String × String)) : String :=
  assembleObj ind (l.map (fun kv => (kv.1, jsonQuote kv.2)))

/-- Render an array of strings. -/
def renderStrList (ind : Nat) (l : List String) : String :=
  if l.isEmpty then "[]"
  else
    "[\n" ++
      String.intercalate ",\n" (l.map (fun s => indentS ind ++ jsonQuote s)) ++
      "\n" ++ indentS (ind - 2) ++ "]"

/-- Render the workspaces block. -/
def renderWorkspaces (ind : Nat) (w : Workspaces) : String :=
  assembleObj ind
    ([("packages", renderStrList (ind + 2) w.packages)] ++
      (match w.nohoist with
       | some nh => [("nohoist", renderStrList (ind + 2) nh)]
       | none => []))

/-- Render the npmConfig block. -/
def renderNpmConfig (ind : Nat) (c : NpmConfig) : String :=
  assembleObj ind
    (match c.legacy_peer_deps with
     | some b => [("legacy_peer_deps", if b then "true" else "false")]
     | none => [])

/-- Render the peerDependencyRules block. -/
def renderPeerRules (ind : Nat) (r : PeerRules) : String :=
  assembleObj ind
    ((match r.allowedVersions with
      | some av => [("allowedVersions", renderPairs (ind + 2) av)]
      | none => []) ++
     (match r.ignoreMissing with
      | some ig => [("ignoreMissing", renderStrList (ind + 2) ig)]
      | none => []))

/-- Render the pnpm block. -/
def renderPnpm (ind : Nat) (p : PnpmConfig) : String :=
  assembleObj ind
    ((match p.overrides with
      | some ov => [("overrides", renderPairs (ind + 2) ov)]
      | none => []) ++
     (match p.peerDependencyRules with
      | some r => [("peerDependencyRules", renderPeerRules (ind + 2) r)]
      | none => []) ++
     (match p.hoistingLimits with
      | some h => [("hoistingLimits", jsonQuote h)]
      | none => []))

/-- `JSON.stringify(manifest, null, 2)`: the exact byte string the tool
writes for a manifest object, fields in declared order, absent fields
omitted. -/
def stringifyManifest (m : Manifest) : String :=
  assembleObj 2
    ((match m.name with
      | some n => [("name", jsonQuote n)]
      | none => []) ++
     (match m.dependencies with
      | some d => [("dependencies", renderPairs 4 d)]
      | none => []) ++
     (match m.devDependencies with
      | some d => [("devDependencies", renderPairs 4 d)]
      | none => []) ++
     (match m.peerDependencies with
      | some d => [("peerDependencies", renderPairs 4 d)]
      | none => []) ++
     (match m.workspaces with
      | some w => [("workspaces", renderWorkspaces 4 w)]
      | none => []) ++
     (match m.resolutions with
      | some r => [("resolutions", renderPairs 4 r)]
      | none => []) ++
     (match m.npmConfig with
      | some c => [("npmConfig", renderNpmConfig 4 c)]
      | none => []) ++
     (match m.pnpm with
      | some p => [("pnpm", renderPnpm 4 p)]
      | none => []))

/-- The on-disk state the mutation protocol touches: the manifest file
contents and the optional `package.json.backup` sidecar contents. -/
structure FsState where
  packageJson : String
  backup : Option String
deriving DecidableEq, Repr

/-- `createTemporaryPackageJson` at the filesystem level: it serialises the
in-memory manifest object `m` (parsed earlier from the manifest file) to the
Backup sidecar BEFORE any mutation, then writes the serialised mutated
manifest over the manifest file.  Both writes use
`JSON.stringify(obj, null, 2)`. -/
def createTemporaryPackageJson (peerDeps : List (String × String)) (pm : PM)
    (otherMonorepoIndicators : Bool) (m : Manifest) (_fs : FsState) : FsState :=
  { packageJson := stringifyManifest (mutateManifest peerDeps pm otherMonorepoIndicators m),
    backup := some (stringifyManifest m) }

/-- `restoreOriginalPackageJson`: a no-op when no Backup exists; otherwise
copy the Backup over the manifest and delete the Backup.  `copyOk` models
whether the `fs.copyFile` succeeds; when it throws, the `unlink` is never
reached, so the Backup stays on disk. -/
def restoreOriginalPackageJson (copyOk : Bool) (fs : FsState) : FsState :=
  match fs.backup with
  | none => fs
  | some b => if copyOk then { packageJson := b, backup := none } else fs

end Epd

namespace Epd

theorem getA_nil (k : String) : getA [] k = none := rfl

theorem getA_cons (k0 v0 : String) (rest : List (String × String)) (k : String) :
    getA ((k0, v0) :: rest) k = if k0 = k then some v0 else getA rest k := by
  unfold getA
  rw [List.find?_cons]
  by_cases h : k0 = k
  · simp [h]
  · simp [h]

theorem getA_setA_self (l : List (String × String)) (k v : String) :
    getA (setA l k v) k = some v := by
  induction l with
  | nil => simp [setA, getA_cons]
  | cons kv rest ih =>
    obtain ⟨k0, v0⟩ := kv
    unfold setA
    split
    · rw [getA_cons]
      simp
    · rename_i hne
      simp only at hne
      rw [getA_cons, if_neg hne]
      exact ih

theorem getA_setA_ne (l : List (String × String)) (k k' v : String) (h : k' ≠ k) :
    getA (setA l k v) k' = getA l k' := by
  induction l with
  | nil => simp [setA, getA_cons, getA_nil, Ne.symm h]
  | cons kv rest ih =>
    obtain ⟨k0, v0⟩ := kv
    unfold setA
    split
    · rename_i heq
      simp only at heq
      subst heq
      rw [getA_cons, getA_cons, if_neg (Ne.symm h), if_neg (Ne.symm h)]
    · rw [getA_cons, getA_cons]
      split
      · rfl
      · exact ih

theorem addPeerDepsStep_getA_ne (deps : Option (List (String × String)))
    (dd : List (String × String)) (p : String × String) (k : String) (h : p.1 ≠ k) :
    getA (addPeerDepsStep deps dd p) k = getA dd k := by
  unfold addPeerDepsStep
  split
  · exact getA_setA_ne dd p.1 k p.2 (Ne.symm h)
  · rfl

theorem addFold_getA_not_key (deps : Option (List (String × String)))
    (pd : List (String × String)) :
    ∀ dd k, k ∉ pd.map Prod.fst →
      getA (pd.foldl (addPeerDepsStep deps) dd) k = getA dd k := by
  induction pd with
  | nil => intro dd k _; rfl
  | cons p ps ih =>
    intro dd k hk
    simp only [List.map_cons, List.mem_cons, not_or] at hk
    simp only [List.foldl_cons]
    rw [ih _ k hk.2, addPeerDepsStep_getA_ne deps dd p k (Ne.symm hk.1)]

theorem addFold_getA_of_truthy (deps : Option (List (String × String)))
    (pd : List (String × String)) :
    ∀ dd k, truthyL dd k = true →
      getA (pd.foldl (addPeerDepsStep deps) dd) k = getA dd k := by
  induction pd with
  | nil => intro dd k _; rfl
  | cons p ps ih =>
    intro dd k hk
    simp only [List.foldl_cons]
    have hstep : getA (addPeerDepsStep deps dd p) k = getA dd k := by
      by_cases hpk : p.1 = k
      · unfold addPeerDepsStep
        split
        · rename_i hcond
          rw [hpk] at hcond
        
          exact absurd hk (by simp [hcond.2])
        · rfl
      · exact addPeerDepsStep_getA_ne deps dd p k hpk
    have htr : truthyL (addPeerDepsStep deps dd p) k = true := by
      unfold truthyL at hk ⊢
      rw [hstep]
      exact hk
    rw [ih _ k htr, hstep]

theorem addFold_getA_added (deps : Option (List (String × String))) :
    ∀ (pd : List (String × String)) (dd : List (String × String)) (k v : String),
      (k, v) ∈ pd → (pd.map Prod.fst).Nodup →
      truthyO deps k = false → truthyL dd k = false →
      getA (pd.foldl (addPeerDepsStep deps) dd) k = some v := by
  intro pd
  induction pd with
  | nil => intro dd k v h; simp at h
  | cons p ps ih =>
    intro dd k v hmem hnodup hdeps hdd
    simp only [List.map_cons, List.nodup_cons] at hnodup
    simp only [List.foldl_cons]
    rcases List.mem_cons.mp hmem with heq | hmem'
    · subst heq
      have hstep : addPeerDepsStep deps dd (k, v) = setA dd k v := by
        unfold addPeerDepsStep
        rw [if_pos ⟨hdeps, hdd⟩]
      rw [hstep, addFold_getA_not_key deps ps _ k hnodup.1, getA_setA_self]
    · have hp1 : p.1 ≠ k := by
        intro hcontra
        exact hnodup.1 (hcontra ▸ (List.mem_map.mpr ⟨(k, v), hmem', rfl⟩))
      have hstep := addPeerDepsStep_getA_ne deps dd p k hp1
      have hdd' : truthyL (addPeerDepsStep deps dd p) k = false := by
        unfold truthyL at hdd ⊢
        rw [hstep]
        exact hdd
      exact ih _ k v hmem' hnodup.2 hdeps hdd'

theorem addPhase_dependencies (pd : List (String × String)) (m : Manifest) :
    (addPhase pd m).dependencies = m.dependencies := rfl

theorem addPhase_workspaces (pd : List (String × String)) (m : Manifest) :
    (addPhase pd m).workspaces = m.workspaces := rfl

theorem addPhase_pnpm (pd : List (String × String)) (m : Manifest) :
    (addPhase pd m).pnpm = m.pnpm := rfl

theorem extras_dependencies (pm : PM) (c : List String) (m : Manifest) :
    (applyMonorepoExtras pm c m).dependencies = m.dependencies := by
  cases pm
  · rfl
  · unfold applyMonorepoExtras
    cases m.workspaces <;> rfl
  · rfl

theorem extras_devDependencies (pm : PM) (c : List String) (m : Manifest) :
    (applyMonorepoExtras pm c m).devDependencies = m.devDependencies := by
  cases pm
  · rfl
  · unfold applyMonorepoExtras
    cases m.workspaces <;> rfl
  · rfl

theorem extras_pnpm_yarn (c : List String) (m : Manifest) :
    (applyMonorepoExtras PM.yarn c m).pnpm = m.pnpm := by
  unfold applyMonorepoExtras
  cases m.workspaces <;> rfl

theorem mutate_dependencies_eq (pd : List (String × String)) (pm : PM) (ind : Bool)
    (m : Manifest) : (mutateManifest pd pm ind m).dependencies = m.dependencies := by
  unfold mutateManifest
  cases pm <;> simp only <;> split <;>
    simp [extras_dependencies, applyPnpm, addPhase_dependencies]

theorem mutate_devDependencies_eq (pd : List (String × String)) (pm : PM) (ind : Bool)
    (m : Manifest) :
    (mutateManifest pd pm ind m).devDependencies = (addPhase pd m).devDependencies := by
  unfold mutateManifest
  cases pm <;> simp only <;> split <;>
    simp [extras_devDependencies, applyPnpm]

end Epd

namespace Epd

/-- A one-field manifest used as a concrete instance: the in-memory object
that `JSON.parse` produces from both of the file contents below. -/
def exampleManifestA : Manifest := { name := some "a" }

/-- A manifest file already in `JSON.stringify(obj, null, 2)` form. -/
def exampleFsA : FsState := ⟨stringifyManifest exampleManifestA, none⟩

/-- A manifest file holding the same object in compact JSON form
(`JSON.parse` of these bytes yields `exampleManifestA`). -/
def compactFsA : FsState := ⟨"\x7b\"name\":\"a\"\x7d", none⟩

/-- C1 (amended): `apply()` followed by `restore()` restores the manifest
file to the 2-space-indented JSON serialisation of the original manifest
object, and the Backup equals exactly that serialisation; so the round trip
is byte-for-byte exactly when the original file was already in serialised
form.  The Backup is written before any mutation but is a re-serialisation
of the parsed manifest object, not a byte copy of the file. -/
theorem apply_restore_roundtrip_serialised :
    ∀ (peerDeps : List (String × String)) (pm : PM) (ind : Bool) (m : Manifest)
      (fs : FsState),
      fs.packageJson = stringifyManifest m →
      (createTemporaryPackageJson peerDeps pm ind m fs).backup = some fs.packageJson ∧
      (restoreOriginalPackageJson true
          (createTemporaryPackageJson peerDeps pm ind m fs)).packageJson = fs.packageJson := by
  intro peerDeps pm ind m fs h
  unfold createTemporaryPackageJson restoreOriginalPackageJson
  simp [h]

/-- Witness for C1 (amended) at a concrete manifest already in serialised
form. -/
theorem apply_restore_roundtrip_serialised_witness :
    (createTemporaryPackageJson [] PM.npm false exampleManifestA exampleFsA).backup
        = some exampleFsA.packageJson ∧
    (restoreOriginalPackageJson true
        (createTemporaryPackageJson [] PM.npm false exampleManifestA exampleFsA)).packageJson
      = exampleFsA.packageJson :=
  apply_restore_roundtrip_serialised [] PM.npm false exampleManifestA exampleFsA rfl

/-- C1 (counterexample): for the manifest file `\x7b"name":"a"\x7d` (compact
JSON, which parses to `exampleManifestA`), the Backup differs from the
current manifest file bytes and the apply/restore round trip does not
reproduce the file byte-for-byte: both end up as the 2-space re-serialisation
of the parsed object. -/
theorem apply_restore_not_bytewise_counterexample :
    (restoreOriginalPackageJson true
        (createTemporaryPackageJson [] PM.npm false exampleManifestA compactFsA)).packageJson
      ≠ compactFsA.packageJson ∧
    (createTemporaryPackageJson [] PM.npm false exampleManifestA compactFsA).backup
      ≠ some compactFsA.packageJson := by
  constructor
  · decide
  · decide

/-- A manifest with `react` pinned in `dependencies` at a range different
from the resolved version. -/
def exampleManifestReact : Manifest := { dependencies := some [("react", "^16.0.0")] }

/-- C2 (counterexample): with `react` present under `dependencies` at
`^16.0.0` and resolved version `18.0.0`, the merge leaves the entry at
`^16.0.0` (no in-place update) and adds nothing for `react` to
`devDependencies`; the claimed update-in-place does not happen. -/
theorem merge_rule_never_updates_counterexample :
    getA ((mutateManifest [("react", "18.0.0")] PM.npm false
        exampleManifestReact).dependencies.getD []) "react" = some "^16.0.0" ∧
    getA ((mutateManifest [("react", "18.0.0")] PM.npm false
        exampleManifestReact).devDependencies.getD []) "react" = none ∧
    ("^16.0.0" : String) ≠ "18.0.0" := by
  refine ⟨by decide, by decide, by decide⟩

/-- C2 (amended): the merge rule never updates an existing entry: the
`dependencies` section is never modified at all; a name truthy-present under
`devDependencies` keeps its version; and a resolved name absent from both
sections is added to `devDependencies` with its resolved version (so entries
are also never moved between sections). -/
theorem merge_rule_add_only :
    ∀ (peerDeps : List (String × String)) (pm : PM) (ind : Bool) (m : Manifest),
      (mutateManifest peerDeps pm ind m).dependencies = m.dependencies ∧
      (∀ k, truthyL (m.devDependencies.getD []) k = true →
        getA ((mutateManifest peerDeps pm ind m).devDependencies.getD []) k
          = getA (m.devDependencies.getD []) k) ∧
      (∀ k v, (k, v) ∈ peerDeps → (peerDeps.map Prod.fst).Nodup →
        truthyO m.dependencies k = false →
        truthyL (m.devDependencies.getD []) k = false →
        getA ((mutateManifest peerDeps pm ind m).devDependencies.getD []) k = some v) := by
  intro peerDeps pm ind m
  refine ⟨mutate_dependencies_eq peerDeps pm ind m, ?_, ?_⟩
  · intro k hk
    rw [mutate_devDependencies_eq]
    exact addFold_getA_of_truthy m.dependencies peerDeps _ k hk
  · intro k v hmem hnodup hdeps hdd
    rw [mutate_devDependencies_eq]
    exact addFold_getA_added m.dependencies peerDeps _ k v hmem hnodup hdeps hdd

/-- Witness for C2 (amended): a resolved dependency absent from both
sections lands in `devDependencies`. -/
theorem merge_rule_add_only_witness :
    getA ((mutateManifest [("left-pad", "1.3.0")] PM.yarn false
        exampleManifestReact).devDependencies.getD []) "left-pad" = some "1.3.0" :=
  (merge_rule_add_only [("left-pad", "1.3.0")] PM.yarn false exampleManifestReact).2.2
    "left-pad" "1.3.0" (by decide) (by decide) (by decide) (by decide)

/-- C8 (confirmed): `restore()` is a no-op when no Backup exists; otherwise
it overwrites the manifest with the Backup contents and deletes the Backup;
when the restoring copy fails, the Backup is left on disk; and restoration
is idempotent. -/
theorem restore_best_effort_idempotent :
    (∀ (p : String) (ok : Bool), restoreOriginalPackageJson ok ⟨p, none⟩ = ⟨p, none⟩) ∧
    (∀ (p b : String), restoreOriginalPackageJson true ⟨p, some b⟩ = ⟨b, none⟩) ∧
    (∀ (p b : String), (restoreOriginalPackageJson false ⟨p, some b⟩).backup = some b) ∧
    (∀ (fs : FsState) (ok : Bool),
      restoreOriginalPackageJson ok (restoreOriginalPackageJson ok fs)
        = restoreOriginalPackageJson ok fs) := by
  refine ⟨fun p ok => rfl, fun p b => rfl, fun p b => rfl, ?_⟩
  intro fs ok
  obtain ⟨p, b⟩ := fs
  cases b
  · rfl
  · cases ok
    · rfl
    · rfl

/-- C9 (confirmed): a requirement group with exactly one peer requirement
resolves to that range verbatim, records no conflict-report entry, and makes
no registry call. -/
theorem single_requirement_fast_path :
    ∀ (r : PeerRequirement) (registryCall : Except String (List String)),
      resolveDep [r] registryCall = (r.versionRange, false, 0) :=
  fun _ _ => rfl

end Epd

namespace Epd

theorem mem_pushIfAbsent_self (l : List String) (x : String) : x ∈ pushIfAbsent l x := by
  unfold pushIfAbsent
  split
  · assumption
  · simp

theorem mem_pushIfAbsent_of_mem {l : List String} {z : String} (x : String) (h : z ∈ l) :
    z ∈ pushIfAbsent l x := by
  unfold pushIfAbsent
  split
  · exact h
  · simp [h]

theorem nodup_pushIfAbsent {l : List String} (x : String) (h : l.Nodup) :
    (pushIfAbsent l x).Nodup := by
  unfold pushIfAbsent
  split
  · exact h
  · rename_i hx
    simp [List.nodup_append, h, hx]

theorem mem_foldPush_of_mem {α : Type} (f : α → String) (ds : List α) :
    ∀ acc z, z ∈ acc → z ∈ ds.foldl (fun a d => pushIfAbsent a (f d)) acc := by
  induction ds with
  | nil => intro acc z hz; exact hz
  | cons d rest ih =>
    intro acc z hz
    simp only [List.foldl_cons]
    exact ih _ z (mem_pushIfAbsent_of_mem _ hz)

theorem mem_foldPush_self {α : Type} (f : α → String) (ds : List α) :
    ∀ acc d, d ∈ ds → f d ∈ ds.foldl (fun a d => pushIfAbsent a (f d)) acc := by
  induction ds with
  | nil => intro acc d hd; simp at hd
  | cons d0 rest ih =>
    intro acc d hd
    simp only [List.foldl_cons]
    rcases List.mem_cons.mp hd with heq | hmem
    · subst heq
      exact mem_foldPush_of_mem f rest _ _ (mem_pushIfAbsent_self acc (f d))
    · exact ih _ d hmem

theorem nodup_foldPush {α : Type} (f : α → String) (ds : List α) :
    ∀ acc, acc.Nodup → (ds.foldl (fun a d => pushIfAbsent a (f d)) acc).Nodup := by
  induction ds with
  | nil => intro acc h; exact h
  | cons d rest ih =>
    intro acc h
    simp only [List.foldl_cons]
    exact ih _ (nodup_pushIfAbsent (f d) h)

/-- The ignore-missing fold over detected problematic packages. -/
def igStep (acc : List String) (pr : String × List (String × String)) : List String :=
  pr.2.foldl (fun acc2 peer => pushIfAbsent acc2 (pr.1 ++ " > " ++ peer.1)) acc

theorem mem_igFold_of_mem (problematic : List (String × List (String × String))) :
    ∀ acc z, z ∈ acc → z ∈ problematic.foldl igStep acc := by
  induction problematic with
  | nil => intro acc z hz; exact hz
  | cons pr rest ih =>
    intro acc z hz
    simp only [List.foldl_cons]
    exact ih _ z (mem_foldPush_of_mem _ pr.2 acc z hz)

theorem mem_igFold_self (problematic : List (String × List (String × String))) :
    ∀ acc pkg peers peer pv, (pkg, peers) ∈ problematic → (peer, pv) ∈ peers →
      (pkg ++ " > " ++ peer) ∈ problematic.foldl igStep acc := by
  induction problematic with
  | nil => intro acc pkg peers peer pv h; simp at h
  | cons pr rest ih =>
    intro acc pkg peers peer pv hpr hpeer
    simp only [List.foldl_cons]
    rcases List.mem_cons.mp hpr with heq | hmem
    · subst heq
      apply mem_igFold_of_mem
      have : (pkg ++ " > " ++ peer) =
          (fun peer : String × String => pkg ++ " > " ++ peer.1) (peer, pv) := rfl
      rw [this]
      exact mem_foldPush_self _ peers acc (peer, pv) hpeer
    · exact ih _ pkg peers peer pv hmem hpeer

theorem nodup_igFold (problematic : List (String × List (String × String))) :
    ∀ acc, acc.Nodup → (problematic.foldl igStep acc).Nodup := by
  induction problematic with
  | nil => intro acc h; exact h
  | cons pr rest ih =>
    intro acc h
    simp only [List.foldl_cons]
    exact ih _ (nodup_foldPush _ pr.2 acc h)

/-- The nohoist list of a manifest (empty when no workspaces config or no
nohoist list). -/
def nohoistOf (m : Manifest) : List String :=
  match m.workspaces with
  | some w => w.nohoist.getD []
  | none => []

/-- The pnpm ignore-missing list of a manifest. -/
def ignoreMissingOf (m : Manifest) : List String :=
  ((m.pnpm.getD {}).peerDependencyRules.getD {}).ignoreMissing.getD []

theorem mutate_yarn_nohoist (pd : List (String × String)) (ind : Bool) (m : Manifest)
    (w : Workspaces) (hw : m.workspaces = some w) :
    nohoistOf (mutateManifest pd PM.yarn ind m) =
      (detectCriticalDependencies (addPhase pd m)).foldl
        (fun acc d => pushIfAbsent acc ("**/" ++ d ++ "/**")) (w.nohoist.getD []) := by
  unfold mutateManifest applyMonorepoExtras addPhase nohoistOf
  simp only [hw]
  rfl

theorem mutate_yarn_pnpm_eq (pd : List (String × String)) (ind : Bool) (m : Manifest) :
    (mutateManifest pd PM.yarn ind m).pnpm = m.pnpm := by
  obtain ⟨nm, dep, dev, peer, ws, res, npc, pn⟩ := m
  cases ws <;> cases ind <;> rfl

theorem mutate_pnpm_ignoreMissing (pd : List (String × String)) (ind : Bool) (m : Manifest) :
    ignoreMissingOf (mutateManifest pd PM.pnpm ind m) =
      (detectProblematicPackages (addPhase pd m)).foldl igStep (ignoreMissingOf m) := by
  obtain ⟨nm, dep, dev, peer, ws, res, npc, pn⟩ := m
  cases ws <;> cases ind <;> rfl

theorem mutate_yarn_nohoist_nodup (pd : List (String × String)) (ind : Bool) (m : Manifest)
    (h : (nohoistOf m).Nodup) :
    (nohoistOf (mutateManifest pd PM.yarn ind m)).Nodup := by
  cases hw : m.workspaces with
  | none =>
    have hw2 : (mutateManifest pd PM.yarn ind m).workspaces = none := by
      obtain ⟨nm, dep, dev, peer, ws, res, npc, pn⟩ := m
      simp only at hw
      subst hw
      cases ind <;> rfl
    unfold nohoistOf
    rw [hw2]
    exact List.nodup_nil
  | some w =>
    rw [mutate_yarn_nohoist pd ind m w hw]
    apply nodup_foldPush
    have : nohoistOf m = w.nohoist.getD [] := by
      unfold nohoistOf
      rw [hw]
    rw [this] at h
    exact h

end Epd

namespace Epd

/-- A yarn monorepo manifest: workspaces declared, `styled-components`
present, its `react` peer absent. -/
def exampleManifestMonorepo : Manifest :=
  { name := some "root",
    dependencies := some [("styled-components", "5.3.0")],
    workspaces := some { packages := ["packages/x"] } }

/-- C7 (counterexample): running the Mutator for YARN on a workspace
manifest containing `styled-components` without `react` produces the
no-hoist pattern, but no `pnpm` block at all — in particular no
ignore-missing entry `styled-components > react` anywhere in the output
manifest, contradicting the claim that the yarn output carries both. -/
theorem yarn_no_ignore_missing_counterexample :
    nohoistOf (mutateManifest [] PM.yarn false exampleManifestMonorepo)
      = ["**/styled-components/**"] ∧
    (mutateManifest [] PM.yarn false exampleManifestMonorepo).pnpm = none := by
  exact ⟨by decide, by decide⟩

/-- C7 (amended): for a yarn workspace manifest with `styled-components`
detected critical, the output contains the no-hoist pattern
`**/styled-components/**` and repeated application never introduces
duplicates; the yarn run leaves the `pnpm` block untouched, and the
ignore-missing entry `styled-components > react` is produced only by the
PNPM branch (where it is also duplicate-free across repeated runs). -/
theorem monorepo_yarn_nohoist_pnpm_ignore_missing :
    ∀ (peerDeps : List (String × String)) (ind : Bool) (m : Manifest) (w : Workspaces),
      m.workspaces = some w →
      "styled-components" ∈ detectCriticalDependencies (addPhase peerDeps m) →
      "**/styled-components/**" ∈ nohoistOf (mutateManifest peerDeps PM.yarn ind m) ∧
      (mutateManifest peerDeps PM.yarn ind m).pnpm = m.pnpm ∧
      (∀ mm : Manifest, (nohoistOf mm).Nodup →
        (nohoistOf (mutateManifest peerDeps PM.yarn ind mm)).Nodup) ∧
      (∀ (mp : Manifest) (peers : List (String × String)) (pv : String),
        ("styled-components", peers) ∈ detectProblematicPackages (addPhase peerDeps mp) →
        ("react", pv) ∈ peers →
        "styled-components > react" ∈ ignoreMissingOf (mutateManifest peerDeps PM.pnpm ind mp)) ∧
      (∀ mp : Manifest, (ignoreMissingOf mp).Nodup →
        (ignoreMissingOf (mutateManifest peerDeps PM.pnpm ind mp)).Nodup) := by
  intro peerDeps ind m w hw hcrit
  refine ⟨?_, mutate_yarn_pnpm_eq peerDeps ind m, ?_, ?_, ?_⟩
  · rw [mutate_yarn_nohoist peerDeps ind m w hw]
    exact mem_foldPush_self (fun d => "**/" ++ d ++ "/**") _ _ "styled-components" hcrit
  · intro mm hmm
    exact mutate_yarn_nohoist_nodup peerDeps ind mm hmm
  · intro mp peers pv hpr hpeer
    rw [mutate_pnpm_ignoreMissing peerDeps ind mp]
    exact mem_igFold_self _ _ "styled-components" peers "react" pv hpr hpeer
  · intro mp hmp
    rw [mutate_pnpm_ignoreMissing peerDeps ind mp]
    exact nodup_igFold _ _ hmp

/-- Witness for C7 (amended) on the concrete monorepo manifest: both the
yarn no-hoist pattern and the pnpm ignore-missing entry appear where the
amended claim places them. -/
theorem monorepo_yarn_nohoist_pnpm_ignore_missing_witness :
    "**/styled-components/**" ∈ nohoistOf (mutateManifest [] PM.yarn false exampleManifestMonorepo) ∧
    "styled-components > react" ∈ ignoreMissingOf (mutateManifest [] PM.pnpm false exampleManifestMonorepo) :=
  ⟨(monorepo_yarn_nohoist_pnpm_ignore_missing [] false exampleManifestMonorepo
      { packages := ["packages/x"] } rfl (by decide)).1,
   (monorepo_yarn_nohoist_pnpm_ignore_missing [] false exampleManifestMonorepo
      { packages := ["packages/x"] } rfl (by decide)).2.2.2.1
     exampleManifestMonorepo [("react", "*"), ("react-dom", "*")] "*" (by decide) (by decide)⟩

end Epd

namespace Epd

theorem gtStr_irrefl (a : String) : gtStr a a = false := by
  unfold gtStr
  cases h : parseVersion a
  · rfl
  · simp [vlt_irrefl]

theorem gtStr_true_elim {a b : String} (h : gtStr a b = true) :
    ∃ va vb, parseVersion a = some va ∧ parseVersion b = some vb ∧ vlt vb va := by
  unfold gtStr at h
  cases ha : parseVersion a with
  | none => rw [ha] at h; cases hb : parseVersion b <;> rw [hb] at h <;> simp at h
  | some va =>
    cases hb : parseVersion b with
    | none => rw [ha, hb] at h; simp at h
    | some vb =>
      rw [ha, hb] at h
      simp only [decide_eq_true_eq] at h
      exact ⟨va, vb, rfl, rfl, h⟩

theorem gtStr_of_parses {a b : String} {va vb : Version} (ha : parseVersion a = some va)
    (hb : parseVersion b = some vb) (h : vlt vb va) : gtStr a b = true := by
  unfold gtStr
  rw [ha, hb]
  simp [h]

theorem gtStr_false_elim {a b : String} {va vb : Version} (ha : parseVersion a = some va)
    (hb : parseVersion b = some vb) (h : gtStr a b = false) : ¬ vlt vb va := by
  unfold gtStr at h
  rw [ha, hb] at h
  simpa using h

theorem gtStr_trans {a b c : String} (h1 : gtStr a b = true) (h2 : gtStr b c = true) :
    gtStr a c = true := by
  obtain ⟨va, vb, ha, hb, hab⟩ := gtStr_true_elim h1
  obtain ⟨vb2, vc, hb2, hc, hbc⟩ := gtStr_true_elim h2
  rw [hb] at hb2
  injection hb2 with hbeq
  subst hbeq
  exact gtStr_of_parses ha hc (vlt_trans hbc hab)

/-- Invariant of the exact-version reduce in `findHighestSemverVersion`:
over a list of parseable version strings and a parseable accumulator, the
fold result is the accumulator or a list member, and nothing among them is
greater than it. -/
theorem foldl_max_invariant (l : List String) :
    ∀ acc, (parseVersion acc).isSome → (∀ x ∈ l, (parseVersion x).isSome) →
      (l.foldl (fun highest current => if gtStr current highest then current else highest) acc = acc ∨
        l.foldl (fun highest current => if gtStr current highest then current else highest) acc ∈ l) ∧
      gtStr acc (l.foldl (fun highest current => if gtStr current highest then current else highest) acc) = false ∧
      (∀ e ∈ l, gtStr e (l.foldl (fun highest current => if gtStr current highest then current else highest) acc) = false) := by
  induction l with
  | nil =>
    intro acc _ _
    exact ⟨Or.inl rfl, gtStr_irrefl acc, by intro e he; simp at he⟩
  | cons c cs ih =>
    intro acc hacc hall
    have hc : (parseVersion c).isSome := hall c (List.mem_cons_self c cs)
    have hcs : ∀ x ∈ cs, (parseVersion x).isSome := fun x hx => hall x (List.mem_cons_of_mem c hx)
    simp only [List.foldl_cons]
    by_cases hstep : gtStr c acc = true
    · rw [if_pos hstep]
      obtain ⟨hmem, hc_le, hrest⟩ := ih c hc hcs
      refine ⟨?_, ?_, ?_⟩
      · rcases hmem with h | h
        · rw [h]; exact Or.inr (List.mem_cons_self c cs)
        · exact Or.inr (List.mem_cons_of_mem c h)
      · cases hres : gtStr acc
            (cs.foldl (fun highest current => if gtStr current highest then current else highest) c) with
        | false => rfl
        | true =>
          have := gtStr_trans hstep hres
          rw [this] at hc_le
          exact absurd hc_le (by simp)
      · intro e he
        rcases List.mem_cons.mp he with heq | hmem2
        · rw [heq]; exact hc_le
        · exact hrest e hmem2
    · rw [if_neg hstep]
      obtain ⟨hmem, hacc_le, hrest⟩ := ih acc hacc hcs
      refine ⟨?_, hacc_le, ?_⟩
      · rcases hmem with h | h
        · exact Or.inl h
        · exact Or.inr (List.mem_cons_of_mem c h)
      · intro e he
        rcases List.mem_cons.mp he with heq | hmem2
        · subst heq
          cases hcr : gtStr e
              (cs.foldl (fun highest current => if gtStr current highest then current else highest) acc) with
          | false => rfl
          | true =>
            exfalso
            obtain ⟨ve, vr, hpe, hpr, hvlt⟩ := gtStr_true_elim hcr
            obtain ⟨va, hpa⟩ := Option.isSome_iff_exists.mp hacc
            have hnea : ¬ vlt va ve :=
              gtStr_false_elim hpe hpa (Bool.not_eq_true _ ▸ eq_false_of_ne_true hstep)
            have hnar : ¬ vlt vr va := gtStr_false_elim hpa hpr hacc_le
            rcases vlt_total va ve with hlt | heq2 | hgt
            · exact hnea hlt
            · exact hnar (heq2 ▸ hvlt)
            · exact hnar (vlt_trans hvlt hgt)
        · exact hrest e hmem2

end Epd

namespace Epd

theorem findHighest_mem (ranges : List String) (hne : ranges ≠ []) :
    findHighestSemverVersion ranges ∈ ranges := by
  unfold findHighestSemverVersion
  cases hex : ranges.filter (fun r => (parseVersion r).isSome) with
  | cons e rest =>
    simp only [hex]
    have hparse : ∀ x ∈ e :: rest, (parseVersion x).isSome := by
      intro x hx
      rw [← hex] at hx
      exact (List.mem_filter.mp hx).2
    have he : (parseVersion e).isSome := hparse e (List.mem_cons_self e rest)
    obtain ⟨hmem, -, -⟩ := foldl_max_invariant (e :: rest) e he hparse
    have hin : (e :: rest).foldl
        (fun highest current => if gtStr current highest then current else highest) e ∈ e :: rest := by
      rcases hmem with h | h
      · rw [h]; exact List.mem_cons_self e rest
      · exact h
    have hsub : ∀ x, x ∈ e :: rest → x ∈ ranges := by
      intro x hx
      rw [← hex] at hx
      exact List.mem_of_mem_filter hx
    exact hsub _ hin
  | nil =>
    simp only [hex]
    obtain ⟨z, hz⟩ := List.exists_mem_of_ne_nil ranges hne
    have hzs : z ∈ sortJS rangeCmp ranges := mem_sortJS.mpr hz
    cases hs : sortJS rangeCmp ranges with
    | nil => rw [hs] at hzs; simp at hzs
    | cons a t =>
      have ha : a ∈ sortJS rangeCmp ranges := by
        rw [hs]; exact List.mem_cons_self a t
      simpa using mem_sortJS.mp ha

/-- C10 (confirmed): `findHighestSemverVersion` always returns one of its
input range strings verbatim; in particular, when no input is an exact
version it can return a range string such as `^17.0.0`. -/
theorem fallback_returns_member :
    (∀ ranges : List String, ranges ≠ [] → findHighestSemverVersion ranges ∈ ranges) ∧
    findHighestSemverVersion ["^17.0.0", "^16.0.0"] = "^17.0.0" ∧
    parseVersion "^17.0.0" = none := by
  refine ⟨findHighest_mem, by decide, by decide⟩

/-- Witness for C10 at a concrete input list. -/
theorem fallback_returns_member_witness :
    findHighestSemverVersion ["*", "^2.5.0"] ∈ ["*", "^2.5.0"] :=
  fallback_returns_member.1 ["*", "^2.5.0"] (by decide)

/-- The numeric base version of a range string:
`semver` applied to the string with everything but digits and dots removed. -/
def baseVersionOf (r : String) : Option Version :=
  parseVersion (stripNonNumeric r)

/-- Rank classes actually implemented by the comparator: caret ranges first,
then every other non-wildcard range, wildcards last. -/
def rankClassOf (r : String) : Nat :=
  if r = "*" then 2 else if startsCaret r then 0 else 1

/-- Strict comparison of optional base versions (false when either side has
no parseable base). -/
def baseGtO : Option Version → Option Version → Prop
  | some x, some y => vlt y x
  | _, _ => False

/-- The strict order the code sorts by: lower rank class first, higher base
version first within a class. -/
def specRankLt (a b : String) : Prop :=
  rankClassOf a < rankClassOf b ∨
    (rankClassOf a = rankClassOf b ∧ baseGtO (baseVersionOf a) (baseVersionOf b))

instance (a b : String) : Decidable (specRankLt a b) := by
  unfold specRankLt baseGtO
  cases baseVersionOf a <;> cases baseVersionOf b <;> infer_instance

/-- The rank classes the CLAIM describes: caret, then tilde, then
plain/wildcard. -/
def claimRankOf (r : String) : Nat :=
  if startsCaret r then 0 else if startsTilde r then 1 else 2

/-- The strict order the claim asserts for the fallback: caret before tilde
before plain/wildcard, then numeric base version descending. -/
def claimRankLt (a b : String) : Prop :=
  claimRankOf a < claimRankOf b ∨
    (claimRankOf a = claimRankOf b ∧ baseGtO (baseVersionOf a) (baseVersionOf b))

/-- Membership in the modelled range grammar for ordering purposes: a
wildcard, or a range whose stripped base parses as a version. -/
def elemOK (r : String) : Prop :=
  r = "*" ∨ (baseVersionOf r).isSome = true

instance (r : String) : Decidable (elemOK r) := by
  unfold elemOK
  infer_instance

theorem baseGtO_irrefl (x : Option Version) : ¬ baseGtO x x := by
  cases x
  · exact id
  · exact vlt_irrefl _

theorem specRankLt_irrefl (a : String) : ¬ specRankLt a a := by
  intro h
  rcases h with h | ⟨-, h⟩
  · omega
  · exact baseGtO_irrefl _ h

theorem baseGtO_asymm {x y : Option Version} (h : baseGtO x y) : ¬ baseGtO y x := by
  cases x <;> cases y <;> simp only [baseGtO] at *
  exact vlt_asymm h

theorem baseGtO_trans {x y z : Option Version} (h1 : baseGtO x y) (h2 : baseGtO y z) :
    baseGtO x z := by
  cases x <;> cases y <;> cases z <;> simp only [baseGtO] at *
  all_goals first
    | exact h1.elim
    | exact h2.elim
    | exact vlt_trans h2 h1

theorem specRankLt_asymm {a b : String} (h : specRankLt a b) : ¬ specRankLt b a := by
  intro h2
  rcases h with h | ⟨he, hb⟩ <;> rcases h2 with h2 | ⟨he2, hb2⟩
  · omega
  · omega
  · omega
  · exact baseGtO_asymm hb hb2

theorem specRankLt_trans {a b c : String} (h1 : specRankLt a b) (h2 : specRankLt b c) :
    specRankLt a c := by
  rcases h1 with h1 | ⟨he1, hb1⟩ <;> rcases h2 with h2 | ⟨he2, hb2⟩
  · exact Or.inl (by omega)
  · exact Or.inl (by omega)
  · exact Or.inl (by omega)
  · exact Or.inr ⟨by omega, baseGtO_trans hb1 hb2⟩

end Epd

namespace Epd

theorem gtStr_asymm {a b : String} (h : gtStr a b = true) : gtStr b a = false := by
  obtain ⟨va, vb, ha, hb, hv⟩ := gtStr_true_elim h
  unfold gtStr
  rw [hb, ha]
  simp [vlt_asymm hv]

/-- The satisfied count the CLAIM describes: a `*` range is satisfied, an
invalid range is NOT satisfied. -/
def specSatisfiedCount (ranges : List String) (version : String) : Nat :=
  (ranges.map (fun range =>
    if range = "*" then 1
    else
      match parseRangeStr range, parseVersion version with
      | some cmps, some v => if satisfiesRange v cmps then 1 else 0
      | _, _ => 0)).sum

/-- The satisfied count with the amendment: `*` ranges AND invalid ranges
both count as satisfied. -/
def amendedSatisfiedCount (ranges : List String) (version : String) : Nat :=
  (ranges.map (fun range =>
    if range = "*" ∨ parseRangeStr range = none then 1
    else
      match parseRangeStr range, parseVersion version with
      | some cmps, some v => if satisfiesRange v cmps then 1 else 0
      | _, _ => 0)).sum

theorem satOne_amended (r v : String) :
    satOne r v =
      (if r = "*" ∨ parseRangeStr r = none then 1
       else
         match parseRangeStr r, parseVersion v with
         | some cmps, some ver => if satisfiesRange ver cmps then 1 else 0
         | _, _ => 0) := by
  unfold satOne reqObj
  by_cases hstar : r = "*"
  · simp [hstar]
  · cases hp : parseRangeStr r with
    | none => simp [hstar, hp]
    | some cmps =>
      simp only [hstar, hp, false_or, if_neg, reduceCtorEq]
      cases parseVersion v <;> simp [hstar, hp]

theorem satisfiedCount_eq_amended (ranges : List String) (v : String) :
    satisfiedCount ranges v = amendedSatisfiedCount ranges v := by
  unfold satisfiedCount amendedSatisfiedCount
  induction ranges with
  | nil => rfl
  | cons r rs ih =>
    simp only [List.map_cons, List.sum_cons, ih, satOne_amended]

/-- The early exit of the scoring loop: the first candidate satisfying all
`total` requirements is returned, provided neither the scanned prefix nor
the running best had reached `total`. -/
theorem scan_first_full (ranges : List String) (total : Nat) :
    ∀ (pre : List String) (w : String) (post : List String) (b : BestMatch),
      (∀ v ∈ pre, satisfiedCount ranges v < total) →
      b.satisfiedCount < total →
      satisfiedCount ranges w = total →
      scanVersions ranges total b (pre ++ w :: post) = ⟨w, total⟩ := by
  intro pre
  induction pre with
  | nil =>
    intro w post b _ hb hw
    simp only [List.nil_append, scanVersions, hw]
    simp only [lt_self_iff_false, false_or, if_pos (Or.inl hb)]
    simp
  | cons p ps ih =>
    intro w post b hpre hb hw
    have hp : satisfiedCount ranges p < total := hpre p (List.mem_cons_self p ps)
    simp only [List.cons_append, scanVersions]
    rw [if_neg (Nat.ne_of_lt hp)]
    apply ih w post _ (fun v hv => hpre v (List.mem_cons_of_mem p hv)) _ hw
    split
    · exact hp
    · exact hb

/-- The invariant of the scoring loop when no scanned candidate reaches
`total`: the result is the seed or a scanned candidate with an accurate
count; counts never decrease; the result count dominates every scanned
candidate; among candidates tying the result count, none is a strictly
higher version; and a result that does not improve the seed count is the
seed version or a strictly higher version. -/
theorem scan_inv (ranges : List String) (total : Nat) :
    ∀ (vs : List String) (b : BestMatch),
      (∀ v ∈ vs, satisfiedCount ranges v ≠ total) →
      (∀ v ∈ vs, (parseVersion v).isSome) →
      (parseVersion b.version).isSome →
      (scanVersions ranges total b vs = b ∨
        ((scanVersions ranges total b vs).version ∈ vs ∧
          (scanVersions ranges total b vs).satisfiedCount
            = satisfiedCount ranges (scanVersions ranges total b vs).version)) ∧
      b.satisfiedCount ≤ (scanVersions ranges total b vs).satisfiedCount ∧
      (∀ v ∈ vs, satisfiedCount ranges v ≤ (scanVersions ranges total b vs).satisfiedCount) ∧
      (∀ v ∈ vs,
        satisfiedCount ranges v = (scanVersions ranges total b vs).satisfiedCount →
        gtStr v (scanVersions ranges total b vs).version = false) ∧
      ((scanVersions ranges total b vs).satisfiedCount = b.satisfiedCount →
        ((scanVersions ranges total b vs).version = b.version ∨
          gtStr (scanVersions ranges total b vs).version b.version = true)) := by
  intro vs
  induction vs with
  | nil =>
    intro b _ _ _
    refine ⟨Or.inl rfl, le_refl _, ?_, ?_, fun _ => Or.inl rfl⟩
    · intro v hv; simp at hv
    · intro v hv; simp at hv
  | cons v rest ih =>
    intro b hne hval hbval
    have hvne : satisfiedCount ranges v ≠ total := hne v (List.mem_cons_self v rest)
    have hvval : (parseVersion v).isSome := hval v (List.mem_cons_self v rest)
    have hne2 : ∀ x ∈ rest, satisfiedCount ranges x ≠ total :=
      fun x hx => hne x (List.mem_cons_of_mem v hx)
    have hval2 : ∀ x ∈ rest, (parseVersion x).isSome :=
      fun x hx => hval x (List.mem_cons_of_mem v hx)
    simp only [scanVersions, if_neg hvne]
    by_cases hupd : satisfiedCount ranges v > b.satisfiedCount ∨
        (satisfiedCount ranges v = b.satisfiedCount ∧ gtStr v b.version = true)
    · rw [if_pos hupd]
      obtain ⟨ih1, ih2, ih3, ih4, ih5⟩ :=
        ih ⟨v, satisfiedCount ranges v⟩ hne2 hval2 hvval
      have hbc : b.satisfiedCount ≤ satisfiedCount ranges v := by
        rcases hupd with h | ⟨h, -⟩
        · exact Nat.le_of_lt h
        · exact Nat.le_of_eq h.symm
      refine ⟨?_, le_trans hbc ih2, ?_, ?_, ?_⟩
      · rcases ih1 with h | ⟨hm, hc⟩
        · rw [h]
          exact Or.inr ⟨List.mem_cons_self v rest, rfl⟩
        · exact Or.inr ⟨List.mem_cons_of_mem v hm, hc⟩
      · intro x hx
        rcases List.mem_cons.mp hx with heq | hm
        · rw [heq]; exact ih2
        · exact ih3 x hm
      · intro x hx hceq
        rcases List.mem_cons.mp hx with heq | hm
        · subst heq
          have hcc : (scanVersions ranges total ⟨x, satisfiedCount ranges x⟩ rest).satisfiedCount
              = (BestMatch.mk x (satisfiedCount ranges x)).satisfiedCount := hceq.symm
          rcases ih5 hcc with hveq | hvgt
          · rw [hveq]
            exact gtStr_irrefl x
          · exact gtStr_asymm hvgt
        · exact ih4 x hm hceq
      · intro hceq
        have h1 : satisfiedCount ranges v ≤ b.satisfiedCount := by
          have h2 := ih2
          rw [hceq] at h2
          exact h2
        have hcb : satisfiedCount ranges v = b.satisfiedCount := le_antisymm h1 hbc
        have hgtvb : gtStr v b.version = true := by
          rcases hupd with h | ⟨-, h⟩
          · omega
          · exact h
        have hcc : (scanVersions ranges total ⟨v, satisfiedCount ranges v⟩ rest).satisfiedCount
            = (BestMatch.mk v (satisfiedCount ranges v)).satisfiedCount := by
          rw [hceq]
          exact hcb.symm
        rcases ih5 hcc with hveq | hvgt
        · rw [hveq]
          exact Or.inr hgtvb
        · exact Or.inr (gtStr_trans hvgt hgtvb)
    · rw [if_neg hupd]
      obtain ⟨ih1, ih2, ih3, ih4, ih5⟩ := ih b hne2 hval2 hbval
      push_neg at hupd
      have hvb : satisfiedCount ranges v ≤ b.satisfiedCount := hupd.1
      refine ⟨?_, ih2, ?_, ?_, ih5⟩
      · rcases ih1 with h | ⟨hm, hc⟩
        · exact Or.inl h
        · exact Or.inr ⟨List.mem_cons_of_mem v hm, hc⟩
      · intro x hx
        rcases List.mem_cons.mp hx with heq | hm
        · rw [heq]; exact le_trans hvb ih2
        · exact ih3 x hm
      · intro x hx hceq
        rcases List.mem_cons.mp hx with heq | hm
        · subst heq
          have hxb : satisfiedCount ranges x = b.satisfiedCount := by
            have h1 := ih2
            omega
          have hxfalse : gtStr x b.version = false := by
            cases hg : gtStr x b.version with
            | false => rfl
            | true => exact absurd hg (hupd.2 hxb)
          have hsb : (scanVersions ranges total b rest).satisfiedCount = b.satisfiedCount := by
            omega
          rcases ih5 hsb with hveq | hvgt
          · rw [hveq]
            exact hxfalse
          · cases hg : gtStr x (scanVersions ranges total b rest).version with
            | false => rfl
            | true =>
              have hvb2 := gtStr_trans hg hvgt
              rw [hvb2] at hxfalse
              exact absurd hxfalse (by decide)
        · exact ih4 x hm hceq

end Epd

namespace Epd

/-- C3 (counterexample): the range `bogus` is unparseable; the claim says it
must count as NOT satisfied (spec count 0 for candidate `2.0.0` against
`[bogus, ^1.0.0]`), but the scoring loop counts it as satisfied (count 1),
and consequently the full resolver reports `best-compromise` where the
claimed counting would have found no satisfiable requirement. -/
theorem invalid_range_counted_satisfied_counterexample :
    satisfiedCount ["bogus", "^1.0.0"] "2.0.0" = 1 ∧
    specSatisfiedCount ["bogus", "^1.0.0"] "2.0.0" = 0 ∧
    (resolveConflictFull ["bogus", "^1.0.0"] (.ok ["2.0.0"])).1.resolutionType
      = "best-compromise" := by
  refine ⟨by decide, by decide, by decide⟩

/-- C3 (amended): the per-candidate satisfied count treats `*` ranges AND
unparseable ranges as satisfied; the search stops at the first candidate
satisfying all requirements; and when no candidate satisfies all
requirements, the selected candidate has the maximal satisfied count among
the scanned candidates, with ties broken against any strictly higher
version. -/
theorem best_compromise_scoring :
    (∀ (ranges : List String) (v : String),
      satisfiedCount ranges v = amendedSatisfiedCount ranges v) ∧
    (∀ (ranges pre post : List String) (w : String) (b : BestMatch),
      (∀ v ∈ pre, satisfiedCount ranges v < ranges.length) →
      b.satisfiedCount < ranges.length →
      satisfiedCount ranges w = ranges.length →
      scanVersions ranges ranges.length b (pre ++ w :: post) = ⟨w, ranges.length⟩) ∧
    (∀ (ranges vs : List String) (v0 : String),
      (∀ v ∈ vs, satisfiedCount ranges v ≠ ranges.length) →
      (∀ v ∈ vs, (parseVersion v).isSome) →
      (parseVersion v0).isSome →
      (∀ v ∈ vs, satisfiedCount ranges v
          ≤ (scanVersions ranges ranges.length ⟨v0, 0⟩ vs).satisfiedCount) ∧
      (∀ v ∈ vs,
        satisfiedCount ranges v
            = (scanVersions ranges ranges.length ⟨v0, 0⟩ vs).satisfiedCount →
        gtStr v (scanVersions ranges ranges.length ⟨v0, 0⟩ vs).version = false)) := by
  refine ⟨satisfiedCount_eq_amended, ?_, ?_⟩
  · intro ranges pre post w b hpre hb hw
    exact scan_first_full ranges ranges.length pre w post b hpre hb hw
  · intro ranges vs v0 hne hval hv0
    obtain ⟨-, -, h3, h4, -⟩ := scan_inv ranges ranges.length vs ⟨v0, 0⟩ hne hval hv0
    exact ⟨h3, h4⟩

/-- Witness for C3 (amended) on a concrete two-requirement group and
two-candidate registry. -/
theorem best_compromise_scoring_witness :
    satisfiedCount ["^1.0.0", "^2.0.0"] "1.5.0"
      ≤ (scanVersions ["^1.0.0", "^2.0.0"] 2 ⟨"2.0.0", 0⟩ ["2.0.0", "1.5.0"]).satisfiedCount :=
  ((best_compromise_scoring.2.2 ["^1.0.0", "^2.0.0"] ["2.0.0", "1.5.0"] "2.0.0"
      (by decide) (by decide) (by decide)).1) "1.5.0" (by decide)

/-- C4 (counterexample): with an unparseable range in the group and a failed
registry fetch, the resolver labels the outcome `no-versions-fallback`, not
`highest-required-fallback` as the claim requires for a fetch error. -/
theorem fetch_error_label_counterexample :
    (resolveConflictFull ["bogus", "^1.0.0"] (.error "network")).1.resolutionType
        = "no-versions-fallback" ∧
    ("no-versions-fallback" : String) ≠ "highest-required-fallback" := by
  refine ⟨by decide, by decide⟩

/-- C4 (amended): the registry client returns an empty list on any fetch
failure, so the resolver — which always receives a value, never a thrown
error — can never produce `highest-required-fallback`; when the resolver
reaches the fallback stage (no syntactically valid intersection), it labels
the outcome `no-versions-fallback` exactly when the client returned zero
versions, and `highest-required` exactly when versions exist but the best
compromise satisfied no requirement. -/
theorem fallback_labels :
    (∀ e : String, getPackageVersionsFromRegistry (.error e) = []) ∧
    (∀ (ranges : List String) (fetch : Except String (List String)),
      (resolveConflictFull ranges fetch).1.resolutionType ≠ "highest-required-fallback") ∧
    (∀ (ranges : List String) (fetch : Except String (List String)),
      progressiveValidRange (ranges.headD "") ranges.tail = none →
      (((resolveConflictFull ranges fetch).1.resolutionType = "no-versions-fallback")
          ↔ getPackageVersionsFromRegistry fetch = []) ∧
      (((resolveConflictFull ranges fetch).1.resolutionType = "highest-required")
          ↔ getPackageVersionsFromRegistry fetch ≠ [] ∧
            (scanVersions ranges ranges.length
                ⟨(getPackageVersionsFromRegistry fetch).headD "", 0⟩
                (getPackageVersionsFromRegistry fetch)).satisfiedCount = 0)) := by
  refine ⟨fun e => rfl, ?_, ?_⟩
  · intro ranges fetch
    simp only [resolveConflictFull, resolveVersionConflict, conflictFromVersions]
    split
    · split
      · exact (by decide : ("exact-match" : String) ≠ "highest-required-fallback")
      · split
        · exact (by decide : ("intersection" : String) ≠ "highest-required-fallback")
        · split
          · exact (by decide : ("no-versions-fallback" : String) ≠ "highest-required-fallback")
          · split
            · exact (by decide : ("best-compromise" : String) ≠ "highest-required-fallback")
            · exact (by decide : ("highest-required" : String) ≠ "highest-required-fallback")
    · split
      · exact (by decide : ("no-versions-fallback" : String) ≠ "highest-required-fallback")
      · split
        · exact (by decide : ("best-compromise" : String) ≠ "highest-required-fallback")
        · exact (by decide : ("highest-required" : String) ≠ "highest-required-fallback")
  · intro ranges fetch hnone
    simp only [resolveConflictFull, resolveVersionConflict, conflictFromVersions, hnone]
    by_cases hvs : (getPackageVersionsFromRegistry fetch).isEmpty = true
    · rw [if_pos hvs]
      have hemp : getPackageVersionsFromRegistry fetch = [] := List.isEmpty_iff.mp hvs
      constructor
      · constructor
        · intro _; exact hemp
        · intro _; rfl
      · constructor
        · intro h
          exact absurd (show ("no-versions-fallback" : String) = "highest-required" from h)
            (by decide)
        · rintro ⟨h, -⟩
          exact absurd hemp h
    · rw [if_neg hvs]
      have hnemp : getPackageVersionsFromRegistry fetch ≠ [] := by
        intro h
        rw [h] at hvs
        exact hvs rfl
      by_cases hbest : (scanVersions ranges ranges.length
          ⟨(getPackageVersionsFromRegistry fetch).headD "", 0⟩
          (getPackageVersionsFromRegistry fetch)).satisfiedCount > 0
      · rw [if_pos hbest]
        constructor
        · constructor
          · intro h
            exact absurd (show ("best-compromise" : String) = "no-versions-fallback" from h)
              (by decide)
          · intro h
            exact absurd h hnemp
        · constructor
          · intro h
            exact absurd (show ("best-compromise" : String) = "highest-required" from h)
              (by decide)
          · rintro ⟨-, h⟩
            omega
      · rw [if_neg hbest]
        constructor
        · constructor
          · intro h
            exact absurd (show ("highest-required" : String) = "no-versions-fallback" from h)
              (by decide)
          · intro h
            exact absurd h hnemp
        · constructor
          · intro _
            exact ⟨hnemp, by omega⟩
          · intro _
            rfl

end Epd

namespace Epd

/-- Witness for C4 (amended): a concrete group with an unparseable range and
a registry that returns no versions resolves as `no-versions-fallback`. -/
theorem fallback_labels_witness :
    (resolveConflictFull ["junk", "~2.0.0"] (.ok [])).1.resolutionType
      = "no-versions-fallback" :=
  ((fallback_labels.2.2 ["junk", "~2.0.0"] (.ok []) (by decide)).1).mpr (by decide)

/-- The spec-side notion behind C5: the requirement ranges jointly admit
exactly one satisfying version. -/
def uniqueIntersection (ranges : List String) (v : Version) : Prop :=
  ∀ w : Version,
    (∀ r ∈ ranges, ∃ cmps, parseRangeStr r = some cmps ∧ satisfiesRange w cmps = true)
      ↔ w = v

/-- C5 (counterexample): the group `[^17.0.0, 17.2.5]` admits exactly the
version 17.2.5, and the resolver does return `17.2.5` with strategy
`intersection` — but only after one registry-client call, not zero: the
exact-version fast path fires only when the combined range STRING normalises
to a bare version, which `>=17.0.0 <18.0.0-0 17.2.5` does not. -/
theorem unique_intersection_queries_registry_counterexample :
    uniqueIntersection ["^17.0.0", "17.2.5"] ⟨17, 2, 5⟩ ∧
    resolveConflictFull ["^17.0.0", "17.2.5"] (.ok ["18.0.0", "17.2.5", "17.0.0"])
      = (⟨"17.2.5", false, "intersection", 0⟩, 1) ∧
    (1 : Nat) ≠ 0 := by
  refine ⟨?_, by decide, by decide⟩
  intro w
  constructor
  · intro h
    obtain ⟨cmps, hp, hs⟩ := h "17.2.5" (by simp)
    have hpc : parseRangeStr "17.2.5" = some [Cmp.eq ⟨17, 2, 5⟩] := by decide
    rw [hpc] at hp
    injection hp with hp2
    rw [← hp2] at hs
    simp only [satisfiesRange, List.all_cons, List.all_nil, Bool.and_true, satCmp,
      decide_eq_true_eq] at hs
    exact hs
  · intro h
    subst h
    intro r hr
    rcases List.mem_cons.mp hr with h1 | hr2
    · subst h1
      exact ⟨[Cmp.ge ⟨17, 0, 0⟩, Cmp.ltPre ⟨18, 0, 0⟩], by decide, by decide⟩
    · rcases List.mem_cons.mp hr2 with h2 | hr3
      · subst h2
        exact ⟨[Cmp.eq ⟨17, 2, 5⟩], by decide, by decide⟩
      · simp at hr3

/-- C5 (amended): when the progressively combined range string normalises to
a bare exact version, the resolver returns it with strategy `exact-match`
and zero registry consultations; when the combined range is valid but not a
bare version, the resolver consults the registry once and returns the
`findVersionIntersection` result (the single admissible version whenever the
registry lists it) with strategy `intersection`. -/
theorem intersection_fast_paths :
    ∀ (ranges : List String) (fetch : Except String (List String)) (i : String),
      progressiveValidRange (ranges.headD "") ranges.tail = some i →
      ((parseVersion i).isSome →
        resolveConflictFull ranges fetch = (⟨i, false, "exact-match", 0⟩, 0)) ∧
      (parseVersion i = none →
        ∀ rv, findVersionIntersection ranges (getPackageVersionsFromRegistry fetch) = some rv →
          resolveConflictFull ranges fetch = (⟨rv, false, "intersection", 0⟩, 1)) := by
  intro ranges fetch i hinter
  constructor
  · intro hsome
    obtain ⟨v, hv⟩ := Option.isSome_iff_exists.mp hsome
    simp only [resolveConflictFull, resolveVersionConflict, hinter, hv]
  · intro hnone rv hrv
    simp only [resolveConflictFull, resolveVersionConflict, hinter, hnone, hrv]

/-- Witness for C5 (amended): the group `[1.2.3, *]` normalises to the bare
version `1.2.3` and takes the no-registry exact-match path. -/
theorem intersection_fast_paths_witness :
    resolveConflictFull ["1.2.3", "*"] (.ok ["9.9.9"])
      = (⟨"1.2.3", false, "exact-match", 0⟩, 0) :=
  (intersection_fast_paths ["1.2.3", "*"] (.ok ["9.9.9"]) "1.2.3" (by decide)).1 (by decide)

end Epd

namespace Epd

theorem rankClassOf_le_two (r : String) : rankClassOf r ≤ 2 := by
  unfold rankClassOf
  split
  · omega
  · split <;> omega

theorem rankClassOf_eq_two {r : String} (h : rankClassOf r = 2) : r = "*" := by
  unfold rankClassOf at h
  by_cases h1 : r = "*"
  · exact h1
  · rw [if_neg h1] at h
    split at h <;> omega

theorem baseVersionOf_star : baseVersionOf "*" = none := by decide

/-- The comparator agrees with the rank order on ranges of the modelled
grammar: `rangeCmp a b < 0` exactly when `a` strictly precedes `b`. -/
theorem rangeCmp_lt_iff (a b : String) (ha : elemOK a) (hb : elemOK b) :
    rangeCmp a b < 0 ↔ specRankLt a b := by
  by_cases has : a = "*"
  · have hcmp : rangeCmp a b = 1 := by rw [has]; rfl
    have hclsa : rankClassOf a = 2 := by rw [has]; rfl
    constructor
    · intro h
      rw [hcmp] at h
      exact absurd h (by decide)
    · intro h
      exfalso
      rcases h with h | ⟨heq, hgt⟩
      · have := rankClassOf_le_two b
        omega
      · rw [has] at hgt
        rw [baseVersionOf_star] at hgt
        cases hbb : baseVersionOf b <;> rw [hbb] at hgt <;> exact hgt
  · by_cases hbs : b = "*"
    · have hcmp : rangeCmp a b = -1 := by
        unfold rangeCmp
        rw [if_neg has, hbs, if_pos rfl]
      have hclsa : rankClassOf a ≤ 1 := by
        unfold rankClassOf
        rw [if_neg has]
        split <;> omega
      have hclsb : rankClassOf b = 2 := by rw [hbs]; rfl
      constructor
      · intro _
        exact Or.inl (by omega)
      · intro _
        rw [hcmp]
        decide
    · have hav : ∃ va, baseVersionOf a = some va := by
        rcases ha with h | h
        · exact absurd h has
        · exact Option.isSome_iff_exists.mp h
      have hbv : ∃ vb, baseVersionOf b = some vb := by
        rcases hb with h | h
        · exact absurd h hbs
        · exact Option.isSome_iff_exists.mp h
      obtain ⟨va, hva⟩ := hav
      obtain ⟨vb, hvb⟩ := hbv
      by_cases hac : startsCaret a = true
      · by_cases hbc : startsCaret b = true
        · have hcmp : rangeCmp a b = (if vlt vb va then -1 else if vb = va then 0 else 1) := by
            unfold baseVersionOf at hva hvb
            simp only [rangeCmp, if_neg has, if_neg hbs, hac, hbc, Bool.not_true,
              Bool.and_false, Bool.false_and, Bool.and_self, if_false, hva, hvb]
            simp
          have hcls : rankClassOf a = rankClassOf b := by
            unfold rankClassOf
            rw [if_neg has, if_neg hbs, if_pos hac, if_pos hbc]
          constructor
          · intro h
            rw [hcmp] at h
            by_cases hv : vlt vb va
            · refine Or.inr ⟨hcls, ?_⟩
              rw [hva, hvb]
              exact hv
            · exfalso
              rw [if_neg hv] at h
              split at h <;> omega
          · intro h
            rcases h with h | ⟨-, hgt⟩
            · omega
            · rw [hva, hvb] at hgt
              have hgt2 : vlt vb va := hgt
              rw [hcmp, if_pos hgt2]
              decide
        · have hcmp : rangeCmp a b = -1 := by
            have hbcf : startsCaret b = false := by simpa using hbc
            simp only [rangeCmp, if_neg has, if_neg hbs, hac, hbcf, Bool.not_false,
              Bool.and_true, Bool.and_self, if_true]
          have hclsa : rankClassOf a = 0 := by
            unfold rankClassOf
            rw [if_neg has, if_pos hac]
          have hclsb : rankClassOf b = 1 := by
            unfold rankClassOf
            rw [if_neg hbs, if_neg (by simpa using hbc)]
          constructor
          · intro _
            exact Or.inl (by omega)
          · intro _
            rw [hcmp]
            decide
      · by_cases hbc : startsCaret b = true
        · have hcmp : rangeCmp a b = 1 := by
            have hacf : startsCaret a = false := by simpa using hac
            simp only [rangeCmp, if_neg has, if_neg hbs, hacf, hbc, Bool.not_false,
              Bool.false_and, Bool.true_and, Bool.not_true, if_false, if_true]
            simp
          have hclsa : rankClassOf a = 1 := by
            unfold rankClassOf
            rw [if_neg has, if_neg (by simpa using hac)]
          have hclsb : rankClassOf b = 0 := by
            unfold rankClassOf
            rw [if_neg hbs, if_pos hbc]
          constructor
          · intro h
            rw [hcmp] at h
            exact absurd h (by decide)
          · intro h
            exfalso
            rcases h with h | ⟨heq, -⟩ <;> omega
        · have hcmp : rangeCmp a b = (if vlt vb va then -1 else if vb = va then 0 else 1) := by
            have hacf : startsCaret a = false := by simpa using hac
            have hbcf : startsCaret b = false := by simpa using hbc
            unfold baseVersionOf at hva hvb
            simp only [rangeCmp, if_neg has, if_neg hbs, hacf, hbcf, Bool.not_false,
              Bool.and_false, Bool.false_and, Bool.and_true, if_false, hva, hvb]
            simp
          have hcls : rankClassOf a = rankClassOf b := by
            unfold rankClassOf
            rw [if_neg has, if_neg hbs, if_neg (by simpa using hac), if_neg (by simpa using hbc)]
          constructor
          · intro h
            rw [hcmp] at h
            by_cases hv : vlt vb va
            · refine Or.inr ⟨hcls, ?_⟩
              rw [hva, hvb]
              exact hv
            · exfalso
              rw [if_neg hv] at h
              split at h <;> omega
          · intro h
            rcases h with h | ⟨-, hgt⟩
            · omega
            · rw [hva, hvb] at hgt
              have hgt2 : vlt vb va := hgt
              rw [hcmp, if_pos hgt2]
              decide

end Epd

namespace Epd

theorem pairwise_insertSorted (x : String) (hx : elemOK x) :
    ∀ (l : List String), (∀ y ∈ l, elemOK y) →
      List.Pairwise (fun a b => ¬ specRankLt b a) l →
      List.Pairwise (fun a b => ¬ specRankLt b a) (insertSorted rangeCmp x l) := by
  intro l
  induction l with
  | nil =>
    intro _ _
    simp [insertSorted]
  | cons y ys ih =>
    intro hOK hpw
    have hyOK : elemOK y := hOK y (List.mem_cons_self y ys)
    have hysOK : ∀ z ∈ ys, elemOK z := fun z hz => hOK z (List.mem_cons_of_mem y hz)
    rw [List.pairwise_cons] at hpw
    unfold insertSorted
    by_cases hcmp : rangeCmp x y < 0
    · rw [if_pos hcmp]
      have hRxy : specRankLt x y := (rangeCmp_lt_iff x y hx hyOK).mp hcmp
      rw [List.pairwise_cons]
      constructor
      · intro z hz
        rcases List.mem_cons.mp hz with heq | hmem
        · rw [heq]
          exact specRankLt_asymm hRxy
        · intro hzx
          exact hpw.1 z hmem (specRankLt_trans hzx hRxy)
      · exact List.pairwise_cons.mpr hpw
    · rw [if_neg hcmp]
      have hnRxy : ¬ specRankLt x y := fun h => hcmp ((rangeCmp_lt_iff x y hx hyOK).mpr h)
      rw [List.pairwise_cons]
      constructor
      · intro z hz
        rcases mem_insertSorted.mp hz with heq | hmem
        · rw [heq]
          exact hnRxy
        · exact hpw.1 z hmem
      · exact ih hysOK hpw.2

theorem pairwise_sortJS_aux :
    ∀ (rs : List String), (∀ y ∈ rs, elemOK y) →
      ∀ acc, (∀ y ∈ acc, elemOK y) →
        List.Pairwise (fun a b => ¬ specRankLt b a) acc →
        List.Pairwise (fun a b => ¬ specRankLt b a)
          (rs.foldl (fun acc x => insertSorted rangeCmp x acc) acc) := by
  intro rs
  induction rs with
  | nil =>
    intro _ acc _ hpw
    exact hpw
  | cons x xs ih =>
    intro hOK acc haccOK hpw
    simp only [List.foldl_cons]
    apply ih (fun y hy => hOK y (List.mem_cons_of_mem x hy))
    · intro y hy
      rcases mem_insertSorted.mp hy with heq | hm
      · rw [heq]
        exact hOK x (List.mem_cons_self x xs)
      · exact haccOK y hm
    · exact pairwise_insertSorted x (hOK x (List.mem_cons_self x xs)) acc haccOK hpw

theorem sortJS_head_minimal (ranges : List String) (hOK : ∀ y ∈ ranges, elemOK y) :
    ∀ x ∈ ranges, ¬ specRankLt x ((sortJS rangeCmp ranges).headD "") := by
  intro x hx
  have hpw2 : List.Pairwise (fun a b => ¬ specRankLt b a) (sortJS rangeCmp ranges) :=
    pairwise_sortJS_aux ranges hOK [] (by simp) List.Pairwise.nil
  have hxs : x ∈ sortJS rangeCmp ranges := mem_sortJS.mpr hx
  cases hs : sortJS rangeCmp ranges with
  | nil =>
    rw [hs] at hxs
    simp at hxs
  | cons a t =>
    rw [hs] at hpw2 hxs
    rw [List.pairwise_cons] at hpw2
    rcases List.mem_cons.mp hxs with heq | hmem
    · rw [heq]
      exact specRankLt_irrefl a
    · exact hpw2.1 x hmem

/-- C6 (counterexample): under the ordering the claim states (caret before
tilde before plain, then base version descending), `~1.0.0` strictly
precedes `>=2.0.0`, so the fallback would return `~1.0.0`; the code returns
`>=2.0.0`, because it gives tilde ranges no precedence over plain ranges and
orders the two by base version alone. -/
theorem tilde_not_before_plain_counterexample :
    claimRankLt "~1.0.0" ">=2.0.0" ∧
    findHighestSemverVersion ["~1.0.0", ">=2.0.0"] = ">=2.0.0" ∧
    (">=2.0.0" : String) ≠ "~1.0.0" := by
  refine ⟨Or.inl (by decide), by decide, by decide⟩

/-- C6 (amended): the fallback is deterministic; (a) when some range is an
exact version it returns one of the exact versions and none of them is
greater; (b) otherwise it returns an input range minimal in the implemented
order: caret ranges before all non-caret ranges, then numeric base version
descending, wildcards last — tilde ranges receive no precedence over plain
ranges. -/
theorem highest_required_ordering :
    ∀ ranges : List String, ranges ≠ [] →
      (ranges.filter (fun r => (parseVersion r).isSome) ≠ [] →
        findHighestSemverVersion ranges ∈ ranges.filter (fun r => (parseVersion r).isSome) ∧
        ∀ e ∈ ranges.filter (fun r => (parseVersion r).isSome),
          gtStr e (findHighestSemverVersion ranges) = false) ∧
      (ranges.filter (fun r => (parseVersion r).isSome) = [] →
        (∀ r ∈ ranges, elemOK r) →
        findHighestSemverVersion ranges ∈ ranges ∧
        ∀ x ∈ ranges, ¬ specRankLt x (findHighestSemverVersion ranges)) := by
  intro ranges hne
  constructor
  · intro hex
    cases hfe : ranges.filter (fun r => (parseVersion r).isSome) with
    | nil => exact absurd hfe hex
    | cons e rest =>
      have hdef : findHighestSemverVersion ranges
          = (e :: rest).foldl
              (fun highest current => if gtStr current highest then current else highest) e := by
        unfold findHighestSemverVersion
        simp only [hfe]
      have hparse : ∀ x ∈ e :: rest, (parseVersion x).isSome := by
        intro x hx
        rw [← hfe] at hx
        exact (List.mem_filter.mp hx).2
      obtain ⟨hmem, -, hall⟩ :=
        foldl_max_invariant (e :: rest) e (hparse e (List.mem_cons_self e rest)) hparse
      rw [hdef]
      constructor
      · rcases hmem with h | h
        · rw [h]
          exact List.mem_cons_self e rest
        · exact h
      · exact hall
  · intro hex hOK
    have hdef : findHighestSemverVersion ranges = (sortJS rangeCmp ranges).headD "" := by
      unfold findHighestSemverVersion
      simp only [hex]
    refine ⟨findHighest_mem ranges hne, ?_⟩
    intro x hx
    rw [hdef]
    exact sortJS_head_minimal ranges hOK x hx

/-- Witness for C6 (amended) on both branches: two exact versions, and two
caret/tilde ranges with no exact version. -/
theorem highest_required_ordering_witness :
    findHighestSemverVersion ["17.0.1", "16.1.0"]
        ∈ ["17.0.1", "16.1.0"].filter (fun r => (parseVersion r).isSome) ∧
    findHighestSemverVersion ["^2.0.0", "~1.0.0"] ∈ ["^2.0.0", "~1.0.0"] :=
  ⟨((highest_required_ordering ["17.0.1", "16.1.0"] (by decide)).1 (by decide)).1,
   ((highest_required_ordering ["^2.0.0", "~1.0.0"] (by decide)).2 (by decide) (by decide)).1⟩

end Epd
